import Mathlib

/-!
# Population and archipelago core of PaGMO

A shallow embedding of the inline code of `src/GOclasses/basic/population.h`
(`Population::extract_most_index`, `Population::ll_insert_deme`) and of
`src/GOclasses/basic/archipelago.h` (`archipelago::preEvolutionCallback`,
`archipelago::postEvolutionCallback`), with theorems about them.

Conventions of the embedding.
* `std::vector<T>` is a `List T`; `v[i]` is `v[i]?`, `v[i] = x` is `v.set i x`.
* `size_t` is `Nat` (the code only compares and increments indices).
* Fitness values are elements of a type `R` with a decidable `<`, the comparison of
  `double`; nothing is assumed of `<` in the definitions. A theorem that needs a total
  order says so (`LinearOrder R`), and `double` below is an instance with a NaN.
* A reference parameter that may designate the receiving object itself is a value of
  `DemeRef`, and reads through it see the writes already made to the receiver.
* `pagmo_throw(index_error, msg)` is the result `Except.error (index_error msg)`;
  a member function that can throw after having mutated `pop` returns the pair of its
  outcome and the contents of `pop` at the point where it returned or threw.
-/

namespace Pagmo

/-! ## Data model -/

/-- Exception classes raised by the code under study, with the message passed to
`pagmo_throw`. Only `index_error` is raised by the inline code of `population.h`. -/
inductive pagmo_exception where
  | index_error (what : String)
deriving DecidableEq, Repr

/-- Modelled from the spec: the class `Individual` (`individual.h`) is missing; an
individual is a decision vector together with its fitness value. -/
structure Individual (R : Type) where
  /-- Decision vector (`getDecisionVector()`). -/
  x : List R
  /-- Fitness value (`getFitness()`). -/
  fitness : R
deriving DecidableEq, Repr

/-- Modelled from the spec: the body of `Individual::getFitness()` is missing; it
returns the fitness value of the individual. -/
def Individual.getFitness {R : Type} (ind : Individual R) : R := ind.fitness

/-- Modelled from the spec: the class `GOProblem` (`GOproblem.h`) is missing; a problem
exposes the decision-vector dimension and the per-component lower and upper bounds. -/
structure GOProblem (R : Type) where
  /-- Dimension of the decision vectors. -/
  dimension : Nat
  /-- Lower bounds, one per component. -/
  LB : List R
  /-- Upper bounds, one per component. -/
  UB : List R
deriving DecidableEq, Repr

/-- Class fields of `Population`: the container of individuals and the associated
problem. -/
structure Population (R : Type) where
  /-- Individuals container. -/
  pop : List (Individual R)
  /-- Associated problem. -/
  m_problem : GOProblem R
deriving DecidableEq, Repr

/-- Modelled from the spec: the body of `Population::size()` (`population.cpp`) is
missing; the header documents it as the number of individuals in the population. -/
def Population.size {R : Type} (p : Population R) : Nat := p.pop.length

/-! ## `Population::extract_most_index` -/

/-- The `for (size_t i = 1; i < size; ++i)` loop of `extract_most_index`: the first
argument counts the iterations left, then come the loop variable `i` and the locals
`f` and `index`. The fall-through branch stands for a read past the end of the vector,
which the loop bound excludes. -/
def extract_most_index_loop {R : Type} (func : R → R → Bool) (pop : List (Individual R)) :
    Nat → Nat → R → Nat → Nat
  | 0, _, _, index => index
  | n + 1, i, f, index =>
    match pop[i]? with
    | some ind =>
      if func ind.getFitness f then
        extract_most_index_loop func pop n (i + 1) ind.getFitness i
      else
        extract_most_index_loop func pop n (i + 1) f index
    | none => index

/-- Body of `template <class Functor> size_t extract_most_index() const`; `func` is the
default-constructed functor. -/
def Population.extract_most_index {R : Type} (func : R → R → Bool) (self : Population R) :
    Except pagmo_exception Nat :=
  match self.pop with
  | [] => .error (.index_error "population is empty")
  | p0 :: _ =>
    let size := self.pop.length
    .ok (extract_most_index_loop func self.pop (size - 1) 1 p0.getFitness 0)

/-- The functor `std::less<double>` (strict less-than), the comparator of
`extractBestIndividual`. -/
def less {R : Type} [LT R] [DecidableRel (LT.lt : R → R → Prop)] (a b : R) : Bool :=
  decide (a < b)

/-- The functor `std::greater<double>` (strict greater-than), the comparator of
`extractWorstIndividual`. -/
def greater {R : Type} [LT R] [DecidableRel (LT.lt : R → R → Prop)] (a b : R) : Bool :=
  decide (a > b)

/-! ## `Population::ll_insert_deme` -/

/-- The argument `const Population &deme` of the deme insertions. The code has no check
that `&deme` differs from `this`, so the reference designates either the receiving
population itself (`same`, the call `p.ll_insert_deme(p, picks)`) or another population
object (`other`). -/
inductive DemeRef (R : Type) where
  | same
  | other (deme : Population R)
deriving DecidableEq, Repr

/-- The vector `deme.pop` read through the reference while the container of the
receiving population holds `pop`: that container itself when the reference designates
the receiver, the container of the other population otherwise. -/
def DemeRef.pop {R : Type} (deme : DemeRef R) (pop : List (Individual R)) :
    List (Individual R) :=
  match deme with
  | .same => pop
  | .other d => d.pop

/-- The population the reference designates when the receiving population is `self`. -/
def DemeRef.deref {R : Type} (deme : DemeRef R) (self : Population R) : Population R :=
  match deme with
  | .same => self
  | .other d => d

/-- The `for (size_t i = 0; i < picks_size; ++i)` loop of `ll_insert_deme`: the first
argument counts the iterations left, `i` is the loop variable and `pop` the current
contents of the container. `deme.pop[i]` is read through the reference at each
iteration, so that it sees the earlier writes when the deme is the receiver itself. The
result is the outcome together with the contents of the container when the loop ended
or threw. The fall-through branch and the `none` case of `pop[k]?` stand for reads past
the end of a vector, which the size check and the range check exclude. -/
def ll_insert_deme_loop {R : Type} [LT R] [DecidableRel (LT.lt : R → R → Prop)]
    (Forced : Bool) (deme : DemeRef R) (picks : List Nat) (pop_size : Nat) :
    Nat → Nat → List (Individual R) → Except pagmo_exception Unit × List (Individual R)
  | 0, _, pop => (.ok (), pop)
  | n + 1, i, pop =>
    match picks[i]?, (deme.pop pop)[i]? with
    | some k, some d =>
      if k ≥ pop_size then
        (.error (.index_error "pick value exceeds population's size while inserting deme"),
          pop)
      else if Forced || (pop[k]?).any (fun r => decide (d.getFitness < r.getFitness)) then
        ll_insert_deme_loop Forced deme picks pop_size n (i + 1) (pop.set k d)
      else
        ll_insert_deme_loop Forced deme picks pop_size n (i + 1) pop
    | _, _ => (.ok (), pop)

/-- Body of `template <bool Forced> void ll_insert_deme(deme, picks)`: the outcome of the
call and the receiving population when the call returned or threw. -/
def Population.ll_insert_deme {R : Type} [LT R] [DecidableRel (LT.lt : R → R → Prop)]
    (Forced : Bool) (self : Population R) (deme : DemeRef R) (picks : List Nat) :
    Except pagmo_exception Unit × Population R :=
  let picks_size := picks.length
  let pop_size := self.size
  if picks_size ≠ (deme.deref self).size then
    (.error (.index_error "mismatch between deme size and picks size while inserting deme"),
      self)
  else
    let r := ll_insert_deme_loop Forced deme picks pop_size picks_size 0 self.pop
    (r.1, { self with pop := r.2 })

/-- Modelled from the spec: the body of `Population::insertDeme` (`population.cpp`) is
missing; the policy-gated variant writes the deme back only where the incoming
individual is strictly better, which is `ll_insert_deme<false>`. -/
def Population.insertDeme {R : Type} [LT R] [DecidableRel (LT.lt : R → R → Prop)]
    (self : Population R) (deme : DemeRef R) (picks : List Nat) :
    Except pagmo_exception Unit × Population R :=
  self.ll_insert_deme false deme picks

/-- Modelled from the spec: the body of `Population::insertDemeForced`
(`population.cpp`) is missing; the forced variant writes the deme back unconditionally,
which is `ll_insert_deme<true>`. -/
def Population.insertDemeForced {R : Type} [LT R] [DecidableRel (LT.lt : R → R → Prop)]
    (self : Population R) (deme : DemeRef R) (picks : List Nat) :
    Except pagmo_exception Unit × Population R :=
  self.ll_insert_deme true deme picks

/-! ## Comparisons of `double` -/

/-- The type `double` as the code uses it: fitness values are only copied and compared.
A `double` is NaN or a number; the numbers are the elements of a linearly ordered type
`R`. -/
inductive double (R : Type) where
  | NaN
  | number (v : R)
deriving DecidableEq, Repr

/-- The comparison `a < b` of two `double`s: false as soon as one of them is NaN. -/
def double.lt {R : Type} [LT R] : double R → double R → Prop
  | .number a, .number b => a < b
  | _, _ => False

/-- The comparison `a <= b` of two `double`s: false as soon as one of them is NaN. -/
def double.le {R : Type} [LE R] : double R → double R → Prop
  | .number a, .number b => a ≤ b
  | _, _ => False

instance {R : Type} [LT R] : LT (double R) := ⟨double.lt⟩

instance {R : Type} [LE R] : LE (double R) := ⟨double.le⟩

instance {R : Type} [LT R] [DecidableRel (LT.lt : R → R → Prop)] :
    DecidableRel (LT.lt : double R → double R → Prop) := fun a b =>
  match a, b with
  | .number x, .number y => inferInstanceAs (Decidable (x < y))
  | .NaN, _ => isFalse (fun h => h)
  | .number _, .NaN => isFalse (fun h => h)

instance {R : Type} [LE R] [DecidableRel (LE.le : R → R → Prop)] :
    DecidableRel (LE.le : double R → double R → Prop) := fun a b =>
  match a, b with
  | .number x, .number y => inferInstanceAs (Decidable (x ≤ y))
  | .NaN, _ => isFalse (fun h => h)
  | .number _, .NaN => isFalse (fun h => h)

/-! ## Container invariant -/

/-- The decision vector `x` has the dimension of the problem and each of its components
lies within the bounds the problem declares for it. -/
def GOProblem.admits {R : Type} [LinearOrder R] (p : GOProblem R) (x : List R) : Prop :=
  x.length = p.dimension ∧
    ∀ t ∈ List.zip x (List.zip p.LB p.UB), t.2.1 ≤ t.1 ∧ t.1 ≤ t.2.2

instance {R : Type} [LinearOrder R] (p : GOProblem R) (x : List R) :
    Decidable (p.admits x) := by
  unfold GOProblem.admits; exact inferInstance

/-- Container invariant of `Population`: every stored individual has a decision vector
of the problem's dimension and within the problem's bounds. -/
def Population.invariant {R : Type} [LinearOrder R] (self : Population R) : Prop :=
  ∀ ind ∈ self.pop, self.m_problem.admits ind.x

instance {R : Type} [LinearOrder R] (self : Population R) : Decidable self.invariant := by
  unfold Population.invariant; exact inferInstance

/-! ## `archipelago` migration callbacks -/

/-- Class fields of `archipelago`. The island, problem and migration-scheme classes
(`island.h`, `GOproblem.h`, `MigrationScheme.h`) are missing and are type parameters;
the null `shared_ptr` is `none`, and the barrier is recorded by its thread count. -/
structure archipelago (Island Problem Scheme : Type) where
  /-- Island container. -/
  m_container : List Island
  /-- Problem associated with the archipelago. -/
  m_gop : Problem
  /-- Migration scheme of the archipelago. May be null, what means no migration. -/
  migrationScheme : Option Scheme
  /-- A barrier used to synchronise the start time of all islands. -/
  islandsSyncPoint : Option Nat
deriving DecidableEq, Repr

/-- Body of `void preEvolutionCallback(island& _island)`:
`if (migrationScheme) { migrationScheme->preEvolutionCallback(_island); }`.
The callback of the missing class `MigrationScheme` is the parameter `schemePre`; it may
throw, and it may change the scheme and the island it is handed. The result is the
outcome with the archipelago and the island after the call. -/
def archipelago.preEvolutionCallback {Island Problem Scheme : Type}
    (schemePre : Scheme → Island → Except pagmo_exception (Scheme × Island))
    (self : archipelago Island Problem Scheme) (_island : Island) :
    Except pagmo_exception (archipelago Island Problem Scheme × Island) :=
  match self.migrationScheme with
  | some scheme =>
    match schemePre scheme _island with
    | .ok (scheme1, island1) => .ok ({ self with migrationScheme := some scheme1 }, island1)
    | .error e => .error e
  | none => .ok (self, _island)

/-- Body of `void postEvolutionCallback(island& _island)`:
`if (migrationScheme) { migrationScheme->postEvolutionCallback(_island); }`.
The callback of the missing class `MigrationScheme` is the parameter `schemePost`, as
for `preEvolutionCallback`. -/
def archipelago.postEvolutionCallback {Island Problem Scheme : Type}
    (schemePost : Scheme → Island → Except pagmo_exception (Scheme × Island))
    (self : archipelago Island Problem Scheme) (_island : Island) :
    Except pagmo_exception (archipelago Island Problem Scheme × Island) :=
  match self.migrationScheme with
  | some scheme =>
    match schemePost scheme _island with
    | .ok (scheme1, island1) => .ok ({ self with migrationScheme := some scheme1 }, island1)
    | .error e => .error e
  | none => .ok (self, _island)

/-! ## Sample data -/

/-- A problem of dimension 1 whose only component ranges over `[0, 10]`. -/
def unitProblem : GOProblem Int := ⟨1, [0], [10]⟩

/-- A problem of dimension 1 whose only component ranges over `[0, 100]`. -/
def wideProblem : GOProblem Int := ⟨1, [0], [100]⟩

/-- A population of `unitProblem` with three individuals of fitness 3, 1 and 2. -/
def residents : Population Int :=
  ⟨[⟨[5], 3⟩, ⟨[0], 1⟩, ⟨[10], 2⟩], unitProblem⟩

/-- A deme of `unitProblem` with two individuals of fitness 0 and 8. -/
def immigrants : Population Int :=
  ⟨[⟨[4], 0⟩, ⟨[6], 8⟩], unitProblem⟩

/-- A deme of `wideProblem` with one individual, of fitness 0, whose decision vector is
within the bounds of `wideProblem` and outside those of `unitProblem`. -/
def foreignDeme : Population Int :=
  ⟨[⟨[50], 0⟩], wideProblem⟩

/-- A population of three individuals with fitness values 1, NaN and 0. -/
def nanPopulation : Population (double Int) :=
  ⟨[⟨[], .number 1⟩, ⟨[], .NaN⟩, ⟨[], .number 0⟩], ⟨0, [], []⟩⟩

/-- A population of one individual whose fitness is NaN. -/
def nanResident : Population (double Int) :=
  ⟨[⟨[], .NaN⟩], ⟨0, [], []⟩⟩

/-- A deme of one individual of fitness 0. -/
def numberDeme : Population (double Int) :=
  ⟨[⟨[], .number 0⟩], ⟨0, [], []⟩⟩

/-! ## Proof-side presentation of the insertion loop -/

/-- List-recursive presentation of the loop of `ll_insert_deme` for a deme that is another
population object, walking the remaining picks and the remaining deme entries side by
side. It is used in proofs only and is shown equal to `ll_insert_deme_loop` in
`ll_insert_deme_loop_eq`. -/
def insertEntries {R : Type} [LT R] [DecidableRel (LT.lt : R → R → Prop)]
    (Forced : Bool) (pop_size : Nat) :
    List Nat → List (Individual R) → List (Individual R) →
      Except pagmo_exception Unit × List (Individual R)
  | k :: ks, d :: ds, pop =>
    if k ≥ pop_size then
      (.error (.index_error "pick value exceeds population's size while inserting deme"),
        pop)
    else if Forced || (pop[k]?).any (fun r => decide (d.getFitness < r.getFitness)) then
      insertEntries Forced pop_size ks ds (pop.set k d)
    else
      insertEntries Forced pop_size ks ds pop
  | _, _, pop => (.ok (), pop)

/-! ## Lemmas on the scan for the extreme fitness -/

/-- Loop invariant of the scan: if `f` is the fitness stored at `index`, no individual
before position `i` is preferred to `f` by a transitive and irreflexive functor, and
the iterations left reach the end of the vector, then the index returned is in range
and no stored individual is preferred to the one it designates. -/
theorem extract_most_index_loop_spec {R : Type} (func : R → R → Bool)
    (htrans : ∀ a b c, func a b = true → func b c = true → func a c = true)
    (hirr : ∀ a, func a a = false) (pop : List (Individual R)) :
    ∀ (n i : Nat) (f : R) (index : Nat), i + n = pop.length → index < i →
      (∃ cur, pop[index]? = some cur ∧ cur.getFitness = f) →
      (∀ (j : Nat) (ind : Individual R), j < i → pop[j]? = some ind →
        func ind.getFitness f = false) →
      ∃ ext, pop[extract_most_index_loop func pop n i f index]? = some ext ∧
        ∀ (j : Nat) (ind : Individual R), pop[j]? = some ind →
          func ind.getFitness ext.getFitness = false := by
  intro n
  induction n with
  | zero =>
    intro i f index hlen _ hcur hinv
    obtain ⟨cur, hcur, hf⟩ := hcur
    refine ⟨cur, by simpa [extract_most_index_loop] using hcur, ?_⟩
    intro j ind hj
    have hji : j < i := by
      have := (List.getElem?_eq_some_iff.mp hj).1
      omega
    rw [hf]
    exact hinv j ind hji hj
  | succ n ih =>
    intro i f index hlen hidx hcur hinv
    have hi : i < pop.length := by omega
    have hget : pop[i]? = some pop[i] := List.getElem?_eq_getElem hi
    rw [extract_most_index_loop, hget]
    simp only
    by_cases hc : func pop[i].getFitness f = true
    · rw [if_pos hc]
      apply ih (i + 1) pop[i].getFitness i (by omega) (by omega) ⟨pop[i], hget, rfl⟩
      intro j ind hj hjget
      rcases Nat.lt_succ_iff_lt_or_eq.mp hj with hlt | heq
      · have h1 := hinv j ind hlt hjget
        by_contra h2
        have h3 : func ind.getFitness pop[i].getFitness = true := by
          simpa using h2
        rw [htrans _ _ _ h3 hc] at h1
        exact Bool.noConfusion h1
      · subst heq
        rw [hget] at hjget
        cases hjget
        exact hirr _
    · rw [if_neg hc]
      apply ih (i + 1) f index (by omega) (by omega) hcur
      intro j ind hj hjget
      rcases Nat.lt_succ_iff_lt_or_eq.mp hj with hlt | heq
      · exact hinv j ind hlt hjget
      · subst heq
        rw [hget] at hjget
        cases hjget
        simpa using hc

/-- The scan of a non-empty population with a transitive and irreflexive functor returns
an index in range such that no stored individual is preferred to the one it
designates. -/
theorem extract_most_index_spec {R : Type} (func : R → R → Bool)
    (htrans : ∀ a b c, func a b = true → func b c = true → func a c = true)
    (hirr : ∀ a, func a a = false) (P : Population R) (hne : P.pop ≠ []) :
    ∃ i ext, P.extract_most_index func = .ok i ∧ P.pop[i]? = some ext ∧
      ∀ ind ∈ P.pop, func ind.getFitness ext.getFitness = false := by
  obtain ⟨pop, prob⟩ := P
  cases pop with
  | nil => exact absurd rfl hne
  | cons p0 rest =>
    have h := extract_most_index_loop_spec func htrans hirr (p0 :: rest)
      ((p0 :: rest).length - 1) 1 p0.getFitness 0 (by simp; omega) (by omega)
      ⟨p0, by simp, rfl⟩ (by
        intro j ind hj hget
        have : j = 0 := by omega
        subst this
        simp only [List.getElem?_cons_zero, Option.some.injEq] at hget
        subst hget
        exact hirr _)
    obtain ⟨ext, hext, hall⟩ := h
    refine ⟨_, ext, rfl, hext, ?_⟩
    intro ind hind
    obtain ⟨j, hj⟩ := List.getElem?_of_mem hind
    exact hall j ind hj

/-! ## Lemmas on the insertion loop -/

/-- The index loop of `ll_insert_deme` for a deme that is another population object,
started at position `i` with as many iterations left as picks remain, is the
side-by-side walk over the remaining picks and deme entries. -/
theorem ll_insert_deme_loop_eq {R : Type} [LT R] [DecidableRel (LT.lt : R → R → Prop)]
    (Forced : Bool) (D : Population R) (picks : List Nat) (pop_size : Nat)
    (hsize : picks.length = D.pop.length) :
    ∀ (n i : Nat) (pop : List (Individual R)), i + n = picks.length →
      ll_insert_deme_loop Forced (.other D) picks pop_size n i pop =
        insertEntries Forced pop_size (picks.drop i) (D.pop.drop i) pop := by
  intro n
  induction n with
  | zero =>
    intro i pop hlen
    have h1 : picks.drop i = [] := List.drop_eq_nil_of_le (by omega)
    simp [ll_insert_deme_loop, insertEntries, h1]
  | succ n ih =>
    intro i pop hlen
    have hi : i < picks.length := by omega
    have hd : i < D.pop.length := by omega
    rw [List.drop_eq_getElem_cons hi, List.drop_eq_getElem_cons hd]
    rw [ll_insert_deme_loop]
    simp only [DemeRef.pop]
    rw [List.getElem?_eq_getElem hi, List.getElem?_eq_getElem hd]
    simp only [insertEntries]
    split_ifs
    · rfl
    · exact ih (i + 1) _ (by omega)
    · exact ih (i + 1) _ (by omega)

/-- When the deme is another population object and the pick list has its size,
`ll_insert_deme` is the walk over picks and deme entries from the start. -/
theorem ll_insert_deme_eq {R : Type} [LT R] [DecidableRel (LT.lt : R → R → Prop)]
    (Forced : Bool) (P D : Population R) (K : List Nat) (hsize : K.length = D.size) :
    P.ll_insert_deme Forced (.other D) K =
      ((insertEntries Forced P.size K D.pop P.pop).1,
        { P with pop := (insertEntries Forced P.size K D.pop P.pop).2 }) := by
  have h := ll_insert_deme_loop_eq Forced D K P.size hsize K.length 0 P.pop (by simp)
  simp only [List.drop_zero] at h
  have hne : ¬ K.length ≠ ((DemeRef.other D).deref P).size := fun hc => hc hsize
  simp only [Population.ll_insert_deme, if_neg hne, h]

/-- The walk never changes the number of stored individuals. -/
theorem insertEntries_length {R : Type} [LT R] [DecidableRel (LT.lt : R → R → Prop)] (Forced : Bool) (pop_size : Nat) :
    ∀ (ks : List Nat) (ds pop : List (Individual R)),
      (insertEntries Forced pop_size ks ds pop).2.length = pop.length := by
  intro ks
  induction ks with
  | nil => intro ds pop; simp [insertEntries]
  | cons k ks ih =>
    intro ds pop
    cases ds with
    | nil => simp [insertEntries]
    | cons d ds =>
      simp only [insertEntries]
      split_ifs
      · rfl
      · rw [ih]; simp
      · rw [ih]

/-- The walk succeeds when every pick is below the population size. -/
theorem insertEntries_ok {R : Type} [LT R] [DecidableRel (LT.lt : R → R → Prop)] (Forced : Bool) (pop_size : Nat) :
    ∀ (ks : List Nat) (ds pop : List (Individual R)), (∀ k ∈ ks, k < pop_size) →
      (insertEntries Forced pop_size ks ds pop).1 = .ok () := by
  intro ks
  induction ks with
  | nil => intro ds pop _; simp [insertEntries]
  | cons k ks ih =>
    intro ds pop hr
    cases ds with
    | nil => simp [insertEntries]
    | cons d ds =>
      have hk : ¬ k ≥ pop_size := by
        have := hr k (List.mem_cons_self _ _)
        omega
      have hr1 : ∀ k1 ∈ ks, k1 < pop_size := fun k1 h1 => hr k1 (List.mem_cons_of_mem _ h1)
      simp only [insertEntries, if_neg hk]
      split_ifs
      · exact ih _ _ hr1
      · exact ih _ _ hr1

/-- The walk throws the out-of-range `index_error` when some pick is not below the
population size and each pick has a deme entry. -/
theorem insertEntries_error {R : Type} [LT R] [DecidableRel (LT.lt : R → R → Prop)] (Forced : Bool) (pop_size : Nat) :
    ∀ (ks : List Nat) (ds pop : List (Individual R)), ks.length = ds.length →
      (∃ k ∈ ks, pop_size ≤ k) →
      (insertEntries Forced pop_size ks ds pop).1 = .error
        (.index_error "pick value exceeds population's size while inserting deme") := by
  intro ks
  induction ks with
  | nil =>
    intro ds pop _ hex
    obtain ⟨k, hk, _⟩ := hex
    cases hk
  | cons k ks ih =>
    intro ds pop hlen hex
    cases ds with
    | nil => simp at hlen
    | cons d ds =>
      simp only [List.length_cons, add_left_inj] at hlen
      simp only [insertEntries]
      by_cases hk : k ≥ pop_size
      · rw [if_pos hk]
      · rw [if_neg hk]
        have hex1 : ∃ k1 ∈ ks, pop_size ≤ k1 := by
          obtain ⟨k1, hk1, hge⟩ := hex
          rcases List.mem_cons.mp hk1 with heq | hmem
          · subst heq; exact absurd hge hk
          · exact ⟨k1, hmem, hge⟩
        split_ifs
        · exact ih _ _ hlen hex1
        · exact ih _ _ hlen hex1

/-- An index that is not picked keeps its individual. -/
theorem insertEntries_not_picked {R : Type} [LT R] [DecidableRel (LT.lt : R → R → Prop)] (Forced : Bool)
    (pop_size j : Nat) :
    ∀ (ks : List Nat) (ds pop : List (Individual R)), j ∉ ks →
      (insertEntries Forced pop_size ks ds pop).2[j]? = pop[j]? := by
  intro ks
  induction ks with
  | nil => intro ds pop _; simp [insertEntries]
  | cons k ks ih =>
    intro ds pop hj
    cases ds with
    | nil => simp [insertEntries]
    | cons d ds =>
      have hjk : k ≠ j := fun h => hj (h ▸ List.mem_cons_self _ _)
      have hj1 : j ∉ ks := fun h => hj (List.mem_cons_of_mem _ h)
      simp only [insertEntries]
      split_ifs
      · rfl
      · rw [ih _ _ hj1, List.getElem?_set_ne hjk]
      · exact ih _ _ hj1

/-- Every individual stored after the walk was stored before it or comes from the
deme. -/
theorem insertEntries_mem {R : Type} [LT R] [DecidableRel (LT.lt : R → R → Prop)] (Forced : Bool) (pop_size : Nat) :
    ∀ (ks : List Nat) (ds pop : List (Individual R)) (ind : Individual R),
      ind ∈ (insertEntries Forced pop_size ks ds pop).2 → ind ∈ pop ∨ ind ∈ ds := by
  intro ks
  induction ks with
  | nil => intro ds pop ind h; left; simpa [insertEntries] using h
  | cons k ks ih =>
    intro ds pop ind h
    cases ds with
    | nil => left; simpa [insertEntries] using h
    | cons d ds =>
      simp only [insertEntries] at h
      split_ifs at h
      · exact Or.inl h
      · rcases ih _ _ _ h with h1 | h1
        · rcases List.mem_or_eq_of_mem_set h1 with h2 | h2
          · exact Or.inl h2
          · exact Or.inr (h2 ▸ List.mem_cons_self _ _)
        · exact Or.inr (List.mem_cons_of_mem _ h1)
      · rcases ih _ _ _ h with h1 | h1
        · exact Or.inl h1
        · exact Or.inr (List.mem_cons_of_mem _ h1)

/-- Writing at an index the individual already stored there changes nothing. -/
theorem set_stored_eq {α : Type} (l : List α) (k : Nat) (a : α) (h : l[k]? = some a) :
    l.set k a = l := by
  apply List.ext_getElem?
  intro j
  by_cases hj : k = j
  · subst hj
    rw [List.getElem?_set_self (List.getElem?_eq_some_iff.mp h).1, h]
  · rw [List.getElem?_set_ne hj]

/-- Forced walk: an index that is picked ends up holding the deme entry of the last
position that picks it. -/
theorem insertEntries_forced_last {R : Type} [LT R] [DecidableRel (LT.lt : R → R → Prop)] (pop_size : Nat) :
    ∀ (ks : List Nat) (ds pop : List (Individual R)), ks.length = ds.length →
      (∀ k ∈ ks, k < pop_size) → pop_size = pop.length →
      ∀ (i j : Nat), ks[i]? = some j → (∀ i1, i < i1 → ks[i1]? ≠ some j) →
        (insertEntries true pop_size ks ds pop).2[j]? = ds[i]? := by
  intro ks
  induction ks with
  | nil => intro ds pop _ _ _ i j hi; simp at hi
  | cons k ks ih =>
    intro ds pop hlen hr hps i j hi hlast
    cases ds with
    | nil => simp at hlen
    | cons d ds =>
      simp only [List.length_cons, add_left_inj] at hlen
      have hk : k < pop_size := hr k (List.mem_cons_self _ _)
      have hk1 : ¬ k ≥ pop_size := by omega
      have hr1 : ∀ k1 ∈ ks, k1 < pop_size := fun k1 h1 => hr k1 (List.mem_cons_of_mem _ h1)
      simp only [insertEntries, if_neg hk1, Bool.true_or, if_true]
      cases i with
      | zero =>
        simp only [List.getElem?_cons_zero, Option.some.injEq] at hi
        subst hi
        have hnot : k ∉ ks := by
          intro hmem
          obtain ⟨i1, h1⟩ := List.mem_iff_getElem?.mp hmem
          exact hlast (i1 + 1) (by omega) (by simpa using h1)
        rw [insertEntries_not_picked true pop_size k ks ds _ hnot,
          List.getElem?_set_self (by omega)]
        simp
      | succ i =>
        simp only [List.getElem?_cons_succ] at hi ⊢
        apply ih ds (pop.set k d) hlen hr1 (by simpa using hps) i j hi
        intro i1 hi1
        have := hlast (i1 + 1) (by omega)
        simpa using this

/-- Policy-gated walk over distinct picks: a picked index ends up holding the deme entry
when its fitness is strictly less than the fitness of the resident, and the resident
otherwise. -/
theorem insertEntries_gated {R : Type} [LT R] [DecidableRel (LT.lt : R → R → Prop)] (pop_size : Nat) :
    ∀ (ks : List Nat) (ds pop : List (Individual R)), ks.length = ds.length →
      ks.Nodup → (∀ k ∈ ks, k < pop_size) →
      ∀ (i k : Nat) (d r : Individual R), ks[i]? = some k → ds[i]? = some d →
        pop[k]? = some r →
        (insertEntries false pop_size ks ds pop).2[k]? =
          some (if d.getFitness < r.getFitness then d else r) := by
  intro ks
  induction ks with
  | nil => intro ds pop _ _ _ i k d r hi; simp at hi
  | cons k0 ks ih =>
    intro ds pop hlen hnd hr i k d r hi hd hres
    cases ds with
    | nil => simp at hlen
    | cons d0 ds =>
      simp only [List.length_cons, add_left_inj] at hlen
      have hk0 : ¬ k0 ≥ pop_size := by
        have := hr k0 (List.mem_cons_self _ _)
        omega
      have hr1 : ∀ k1 ∈ ks, k1 < pop_size := fun k1 h1 => hr k1 (List.mem_cons_of_mem _ h1)
      have hnot : k0 ∉ ks := (List.nodup_cons.mp hnd).1
      have hnd1 : ks.Nodup := (List.nodup_cons.mp hnd).2
      simp only [insertEntries, if_neg hk0, Bool.false_or]
      cases i with
      | zero =>
        simp only [List.getElem?_cons_zero, Option.some.injEq] at hi hd
        subst hi
        subst hd
        have hlt : k0 < pop.length := (List.getElem?_eq_some_iff.mp hres).1
        simp only [hres, Option.any_some, decide_eq_true_eq]
        by_cases hc : d0.getFitness < r.getFitness
        · rw [if_pos hc, if_pos hc, insertEntries_not_picked false pop_size k0 ks ds _ hnot,
            List.getElem?_set_self hlt]
        · rw [if_neg hc, if_neg hc, insertEntries_not_picked false pop_size k0 ks ds _ hnot,
            hres]
      | succ i =>
        simp only [List.getElem?_cons_succ] at hi hd
        have hne : k0 ≠ k := by
          intro heq
          subst heq
          exact hnot (List.mem_iff_getElem?.mpr ⟨i, hi⟩)
        by_cases hc : (pop[k0]?).any (fun r => decide (d0.getFitness < r.getFitness)) = true
        · rw [if_pos hc]
          exact ih ds (pop.set k0 d0) hlen hnd1 hr1 i k d r hi hd
            (by rw [List.getElem?_set_ne hne]; exact hres)
        · rw [if_neg hc]
          exact ih ds pop hlen hnd1 hr1 i k d r hi hd hres

/-- Forced walk with a deme that is the snapshot of the picked indices: the walk
succeeds and changes nothing. -/
theorem insertEntries_snapshot {R : Type} [LT R] [DecidableRel (LT.lt : R → R → Prop)] (pop_size : Nat) :
    ∀ (ks : List Nat) (ds pop : List (Individual R)), ks.length = ds.length →
      (∀ k ∈ ks, k < pop_size) → pop_size = pop.length →
      (∀ (i k : Nat), ks[i]? = some k → ds[i]? = pop[k]?) →
      insertEntries true pop_size ks ds pop = (.ok (), pop) := by
  intro ks
  induction ks with
  | nil => intro ds pop _ _ _ _; simp [insertEntries]
  | cons k ks ih =>
    intro ds pop hlen hr hps hsnap
    cases ds with
    | nil => simp at hlen
    | cons d ds =>
      simp only [List.length_cons, add_left_inj] at hlen
      have hk1 : ¬ k ≥ pop_size := by
        have := hr k (List.mem_cons_self _ _)
        omega
      have hr1 : ∀ k1 ∈ ks, k1 < pop_size := fun k1 h1 => hr k1 (List.mem_cons_of_mem _ h1)
      have h0 : pop[k]? = some d := by
        have := hsnap 0 k (by simp)
        simpa using this.symm
      simp only [insertEntries, if_neg hk1, Bool.true_or, if_true, set_stored_eq pop k d h0]
      apply ih ds pop hlen hr1 hps
      intro i k1 hi
      have := hsnap (i + 1) k1 (by simpa using hi)
      simpa using this

/-! ## Lemmas on the insertion loop for any deme reference -/

/-- One iteration of the loop when the pick and the deme entry are read. -/
theorem ll_insert_deme_loop_step {R : Type} [LT R] [DecidableRel (LT.lt : R → R → Prop)]
    (Forced : Bool) (deme : DemeRef R) (picks : List Nat) (pop_size n i k : Nat)
    (pop : List (Individual R)) (d : Individual R)
    (hp : picks[i]? = some k) (hd : (deme.pop pop)[i]? = some d) :
    ll_insert_deme_loop Forced deme picks pop_size (n + 1) i pop =
      if k ≥ pop_size then
        (.error (.index_error "pick value exceeds population's size while inserting deme"),
          pop)
      else if Forced || (pop[k]?).any (fun r => decide (d.getFitness < r.getFitness)) then
        ll_insert_deme_loop Forced deme picks pop_size n (i + 1) (pop.set k d)
      else
        ll_insert_deme_loop Forced deme picks pop_size n (i + 1) pop := by
  rw [ll_insert_deme_loop, hp, hd]

/-- The loop stops with the container as it is when there is no pick or no deme entry
to read. -/
theorem ll_insert_deme_loop_stop {R : Type} [LT R] [DecidableRel (LT.lt : R → R → Prop)]
    (Forced : Bool) (deme : DemeRef R) (picks : List Nat) (pop_size n i : Nat)
    (pop : List (Individual R))
    (h : picks[i]? = none ∨ (deme.pop pop)[i]? = none) :
    ll_insert_deme_loop Forced deme picks pop_size (n + 1) i pop = (.ok (), pop) := by
  rw [ll_insert_deme_loop]
  rcases h with h | h
  · rw [h]
  · rw [h]
    cases picks[i]? <;> rfl

/-- A write into the receiving container does not change the length of the vector read
through the deme reference. -/
theorem DemeRef.pop_set_length {R : Type} (deme : DemeRef R) (pop : List (Individual R))
    (k : Nat) (d : Individual R) :
    (deme.pop (pop.set k d)).length = (deme.pop pop).length := by
  cases deme with
  | same => simp [DemeRef.pop]
  | other D => rfl

/-- The size of the population a reference designates is the length of the vector read
through it. -/
theorem DemeRef.deref_size {R : Type} (deme : DemeRef R) (P : Population R) :
    (deme.deref P).size = (deme.pop P.pop).length := by
  cases deme <;> rfl

/-- When the pick list has the size of the deme, `ll_insert_deme` is its loop run from
position 0. -/
theorem ll_insert_deme_run {R : Type} [LT R] [DecidableRel (LT.lt : R → R → Prop)]
    (Forced : Bool) (P : Population R) (deme : DemeRef R) (K : List Nat)
    (hsize : K.length = (deme.deref P).size) :
    P.ll_insert_deme Forced deme K =
      ((ll_insert_deme_loop Forced deme K P.size K.length 0 P.pop).1,
        { P with pop := (ll_insert_deme_loop Forced deme K P.size K.length 0 P.pop).2 }) := by
  have hne : ¬ K.length ≠ (deme.deref P).size := fun hc => hc hsize
  simp only [Population.ll_insert_deme, if_neg hne]

/-- The loop never changes the number of stored individuals. -/
theorem ll_insert_deme_loop_length {R : Type} [LT R]
    [DecidableRel (LT.lt : R → R → Prop)] (Forced : Bool) (deme : DemeRef R)
    (picks : List Nat) (pop_size : Nat) :
    ∀ (n i : Nat) (pop : List (Individual R)),
      (ll_insert_deme_loop Forced deme picks pop_size n i pop).2.length = pop.length := by
  intro n
  induction n with
  | zero => intro i pop; simp [ll_insert_deme_loop]
  | succ n ih =>
    intro i pop
    cases hp : picks[i]? with
    | none => rw [ll_insert_deme_loop_stop Forced deme picks pop_size n i pop (Or.inl hp)]
    | some k =>
      cases hd : (deme.pop pop)[i]? with
      | none => rw [ll_insert_deme_loop_stop Forced deme picks pop_size n i pop (Or.inr hd)]
      | some d =>
        rw [ll_insert_deme_loop_step Forced deme picks pop_size n i k pop d hp hd]
        split_ifs
        · rfl
        · rw [ih]; simp
        · rw [ih]

/-- The loop succeeds when every pick is below the population size. -/
theorem ll_insert_deme_loop_ok {R : Type} [LT R] [DecidableRel (LT.lt : R → R → Prop)]
    (Forced : Bool) (deme : DemeRef R) (picks : List Nat) (pop_size : Nat)
    (hrange : ∀ k ∈ picks, k < pop_size) :
    ∀ (n i : Nat) (pop : List (Individual R)),
      (ll_insert_deme_loop Forced deme picks pop_size n i pop).1 = .ok () := by
  intro n
  induction n with
  | zero => intro i pop; simp [ll_insert_deme_loop]
  | succ n ih =>
    intro i pop
    cases hp : picks[i]? with
    | none => rw [ll_insert_deme_loop_stop Forced deme picks pop_size n i pop (Or.inl hp)]
    | some k =>
      cases hd : (deme.pop pop)[i]? with
      | none => rw [ll_insert_deme_loop_stop Forced deme picks pop_size n i pop (Or.inr hd)]
      | some d =>
        have hk : ¬ k ≥ pop_size := by
          have := hrange k (List.mem_iff_getElem?.mpr ⟨i, hp⟩)
          omega
        rw [ll_insert_deme_loop_step Forced deme picks pop_size n i k pop d hp hd,
          if_neg hk]
        split_ifs
        · exact ih _ _
        · exact ih _ _

/-- The loop throws the out-of-range `index_error` when a pick at a position still to
come is not below the population size and each pick has a deme entry. -/
theorem ll_insert_deme_loop_error {R : Type} [LT R] [DecidableRel (LT.lt : R → R → Prop)]
    (Forced : Bool) (deme : DemeRef R) (picks : List Nat) (pop_size : Nat) :
    ∀ (n i : Nat) (pop : List (Individual R)), i + n = picks.length →
      picks.length ≤ (deme.pop pop).length →
      (∃ j k, i ≤ j ∧ picks[j]? = some k ∧ pop_size ≤ k) →
      (ll_insert_deme_loop Forced deme picks pop_size n i pop).1 = .error
        (.index_error "pick value exceeds population's size while inserting deme") := by
  intro n
  induction n with
  | zero =>
    intro i pop hlen _ hex
    obtain ⟨j, k, hij, hj, _⟩ := hex
    have := (List.getElem?_eq_some_iff.mp hj).1
    omega
  | succ n ih =>
    intro i pop hlen hdeme hex
    have hi : i < picks.length := by omega
    have hp : picks[i]? = some picks[i] := List.getElem?_eq_getElem hi
    have hd : (deme.pop pop)[i]? = some (deme.pop pop)[i] :=
      List.getElem?_eq_getElem (by omega)
    rw [ll_insert_deme_loop_step Forced deme picks pop_size n i _ pop _ hp hd]
    by_cases hk : picks[i] ≥ pop_size
    · rw [if_pos hk]
    · rw [if_neg hk]
      have hex1 : ∃ j k, i + 1 ≤ j ∧ picks[j]? = some k ∧ pop_size ≤ k := by
        obtain ⟨j, k, hij, hj, hge⟩ := hex
        refine ⟨j, k, ?_, hj, hge⟩
        rcases Nat.eq_or_lt_of_le hij with heq | hlt
        · subst heq
          rw [hp] at hj
          cases hj
          exact absurd hge hk
        · exact hlt
      split_ifs
      · exact ih _ _ (by omega) (by rw [DemeRef.pop_set_length]; exact hdeme) hex1
      · exact ih _ _ (by omega) hdeme hex1

/-- Every individual stored after the loop was stored before it or was then an entry of
the deme. -/
theorem ll_insert_deme_loop_mem {R : Type} [LT R] [DecidableRel (LT.lt : R → R → Prop)]
    (Forced : Bool) (deme : DemeRef R) (picks : List Nat) (pop_size : Nat) :
    ∀ (n i : Nat) (pop : List (Individual R)) (ind : Individual R),
      ind ∈ (ll_insert_deme_loop Forced deme picks pop_size n i pop).2 →
      ind ∈ pop ∨ ind ∈ deme.pop pop := by
  intro n
  induction n with
  | zero => intro i pop ind h; left; simpa [ll_insert_deme_loop] using h
  | succ n ih =>
    intro i pop ind h
    cases hp : picks[i]? with
    | none =>
      rw [ll_insert_deme_loop_stop Forced deme picks pop_size n i pop (Or.inl hp)] at h
      exact Or.inl h
    | some k =>
      cases hd : (deme.pop pop)[i]? with
      | none =>
        rw [ll_insert_deme_loop_stop Forced deme picks pop_size n i pop (Or.inr hd)] at h
        exact Or.inl h
      | some d =>
        have hdmem : d ∈ deme.pop pop := List.mem_iff_getElem?.mpr ⟨i, hd⟩
        have hset : ∀ x, x ∈ pop.set k d → x ∈ pop ∨ x ∈ deme.pop pop := by
          intro x hx
          rcases List.mem_or_eq_of_mem_set hx with h2 | h2
          · exact Or.inl h2
          · exact Or.inr (h2 ▸ hdmem)
        rw [ll_insert_deme_loop_step Forced deme picks pop_size n i k pop d hp hd] at h
        split_ifs at h
        · exact Or.inl h
        · rcases ih _ _ _ h with h1 | h1
          · exact hset ind h1
          · cases deme with
            | same => exact hset ind h1
            | other D => exact Or.inr h1
        · exact ih _ _ _ h

/-- Forced loop with a deme whose entries are the individuals stored at the picks: the
loop succeeds and changes nothing. -/
theorem ll_insert_deme_loop_snapshot {R : Type} [LT R]
    [DecidableRel (LT.lt : R → R → Prop)] (deme : DemeRef R) (picks : List Nat)
    (pop_size : Nat) (hrange : ∀ k ∈ picks, k < pop_size) :
    ∀ (n i : Nat) (pop : List (Individual R)),
      (∀ (i k : Nat), picks[i]? = some k → (deme.pop pop)[i]? = pop[k]?) →
      ll_insert_deme_loop true deme picks pop_size n i pop = (.ok (), pop) := by
  intro n
  induction n with
  | zero => intro i pop _; simp [ll_insert_deme_loop]
  | succ n ih =>
    intro i pop hsnap
    cases hp : picks[i]? with
    | none => rw [ll_insert_deme_loop_stop true deme picks pop_size n i pop (Or.inl hp)]
    | some k =>
      cases hd : (deme.pop pop)[i]? with
      | none => rw [ll_insert_deme_loop_stop true deme picks pop_size n i pop (Or.inr hd)]
      | some d =>
        have hk : ¬ k ≥ pop_size := by
          have := hrange k (List.mem_iff_getElem?.mpr ⟨i, hp⟩)
          omega
        have h0 : pop[k]? = some d := by
          rw [← hsnap i k hp]; exact hd
        rw [ll_insert_deme_loop_step true deme picks pop_size n i k pop d hp hd, if_neg hk]
        simp only [Bool.true_or, if_true, set_stored_eq pop k d h0]
        exact ih (i + 1) pop hsnap

/-- Policy-gated loop over a totally ordered fitness: whatever the picks and the deme
reference, the individual stored at an index afterwards has a fitness not greater than
the one stored there before. -/
theorem ll_insert_deme_loop_gated_le {R : Type} [LinearOrder R] (deme : DemeRef R)
    (picks : List Nat) (pop_size : Nat) :
    ∀ (n i : Nat) (pop : List (Individual R)) (j : Nat) (r1 : Individual R),
      (ll_insert_deme_loop false deme picks pop_size n i pop).2[j]? = some r1 →
      ∃ r0, pop[j]? = some r0 ∧ r1.getFitness ≤ r0.getFitness := by
  intro n
  induction n with
  | zero =>
    intro i pop j r1 h
    exact ⟨r1, by simpa [ll_insert_deme_loop] using h, le_refl _⟩
  | succ n ih =>
    intro i pop j r1 h
    cases hp : picks[i]? with
    | none =>
      rw [ll_insert_deme_loop_stop false deme picks pop_size n i pop (Or.inl hp)] at h
      exact ⟨r1, h, le_refl _⟩
    | some k =>
      cases hd : (deme.pop pop)[i]? with
      | none =>
        rw [ll_insert_deme_loop_stop false deme picks pop_size n i pop (Or.inr hd)] at h
        exact ⟨r1, h, le_refl _⟩
      | some d =>
        rw [ll_insert_deme_loop_step false deme picks pop_size n i k pop d hp hd] at h
        simp only [Bool.false_or] at h
        by_cases hk : k ≥ pop_size
        · rw [if_pos hk] at h
          exact ⟨r1, h, le_refl _⟩
        · rw [if_neg hk] at h
          by_cases hc : (pop[k]?).any (fun r => decide (d.getFitness < r.getFitness)) = true
          · rw [if_pos hc] at h
            obtain ⟨r, hr, hle⟩ := ih _ _ j r1 h
            by_cases hjk : k = j
            · subst hjk
              cases hres : pop[k]? with
              | none => simp [hres] at hc
              | some r0 =>
                have hlt : k < pop.length := (List.getElem?_eq_some_iff.mp hres).1
                rw [List.getElem?_set_self hlt] at hr
                cases hr
                simp only [hres, Option.any_some, decide_eq_true_eq] at hc
                exact ⟨r0, rfl, le_trans hle (le_of_lt hc)⟩
            · rw [List.getElem?_set_ne hjk] at hr
              exact ⟨r, hr, hle⟩
          · rw [if_neg hc] at h
            exact ih _ _ j r1 h

/-! ## Claims on `extract_most_index` -/

/-- C1. For every non-empty population, `extract_most_index` with the comparator of
`extractBestIndividual` (strict less-than) returns an index `i < size` such that no
stored individual has a fitness strictly less than the fitness at `i`, so the fitness
at `i` is `<=` every stored fitness; with the comparator of `extractWorstIndividual`
(strict greater-than) it returns an index `i < size` such that no stored individual has
a fitness strictly greater than the fitness at `i`, so the fitness at `i` is `>=` every
stored fitness. -/
theorem extract_most_index_extremal {R : Type} [LinearOrder R] (P : Population R)
    (hne : 1 ≤ P.size) :
    (∃ i best, P.extract_most_index less = .ok i ∧ i < P.size ∧ P.pop[i]? = some best ∧
      ∀ ind ∈ P.pop, less ind.getFitness best.getFitness = false ∧
        best.getFitness ≤ ind.getFitness) ∧
    (∃ i worst, P.extract_most_index greater = .ok i ∧ i < P.size ∧
      P.pop[i]? = some worst ∧
      ∀ ind ∈ P.pop, greater ind.getFitness worst.getFitness = false ∧
        ind.getFitness ≤ worst.getFitness) := by
  have hne1 : P.pop ≠ [] := by
    intro h
    simp [Population.size, h] at hne
  constructor
  · obtain ⟨i, ext, hok, hget, hall⟩ := extract_most_index_spec (less : R → R → Bool)
      (fun a b c hab hbc => by
        simp only [less, decide_eq_true_eq] at *
        exact lt_trans hab hbc)
      (fun a => by simp [less]) P hne1
    refine ⟨i, ext, hok, (List.getElem?_eq_some_iff.mp hget).1, hget, ?_⟩
    intro ind hind
    have h := hall ind hind
    refine ⟨h, ?_⟩
    simpa [less] using h
  · obtain ⟨i, ext, hok, hget, hall⟩ := extract_most_index_spec (greater : R → R → Bool)
      (fun a b c hab hbc => by
        simp only [greater, gt_iff_lt, decide_eq_true_eq] at *
        exact lt_trans hbc hab)
      (fun a => by simp [greater]) P hne1
    refine ⟨i, ext, hok, (List.getElem?_eq_some_iff.mp hget).1, hget, ?_⟩
    intro ind hind
    have h := hall ind hind
    refine ⟨h, ?_⟩
    simpa [greater] using h

/-- Witness of C1: a population of four individuals with fitness values 3, 1, 2, 1. -/
theorem extract_most_index_extremal_witness :
    (∃ i best, (⟨[⟨[], 3⟩, ⟨[], 1⟩, ⟨[], 2⟩, ⟨[], 1⟩], ⟨0, [], []⟩⟩ :
        Population Nat).extract_most_index less = .ok i ∧ i < 4 ∧
      ([⟨[], 3⟩, ⟨[], 1⟩, ⟨[], 2⟩, ⟨[], 1⟩] : List (Individual Nat))[i]? = some best ∧
      ∀ ind ∈ ([⟨[], 3⟩, ⟨[], 1⟩, ⟨[], 2⟩, ⟨[], 1⟩] : List (Individual Nat)),
        less ind.getFitness best.getFitness = false ∧
        best.getFitness ≤ ind.getFitness) ∧
    (∃ i worst, (⟨[⟨[], 3⟩, ⟨[], 1⟩, ⟨[], 2⟩, ⟨[], 1⟩], ⟨0, [], []⟩⟩ :
        Population Nat).extract_most_index greater = .ok i ∧ i < 4 ∧
      ([⟨[], 3⟩, ⟨[], 1⟩, ⟨[], 2⟩, ⟨[], 1⟩] : List (Individual Nat))[i]? = some worst ∧
      ∀ ind ∈ ([⟨[], 3⟩, ⟨[], 1⟩, ⟨[], 2⟩, ⟨[], 1⟩] : List (Individual Nat)),
        greater ind.getFitness worst.getFitness = false ∧
        ind.getFitness ≤ worst.getFitness) :=
  extract_most_index_extremal
    (⟨[⟨[], 3⟩, ⟨[], 1⟩, ⟨[], 2⟩, ⟨[], 1⟩], ⟨0, [], []⟩⟩ : Population Nat) (by decide)

/-- C2. Querying the best or worst individual fails if and only if the population is
empty: on a population of size 0 `extract_most_index` throws (the exception it throws
is `index_error` with the message "population is empty"), and on every population of
size at least 1 it returns an index without error. -/
theorem extract_most_index_error_iff {R : Type} (func : R → R → Bool) (P : Population R) :
    ((∃ e, P.extract_most_index func = .error e) ↔ P.size = 0) ∧
    (P.extract_most_index func = .error (.index_error "population is empty") ↔
      P.size = 0) ∧
    ((∃ i, P.extract_most_index func = .ok i) ↔ 1 ≤ P.size) := by
  obtain ⟨pop, prob⟩ := P
  cases pop with
  | nil => simp [Population.extract_most_index, Population.size]
  | cons p0 rest => simp [Population.extract_most_index, Population.size]

/-! ## Claims on `ll_insert_deme` -/

/-- C3, as stated, fails when the deme is the receiving population itself: the call
`p.ll_insert_deme<true>(p, picks)` on the residents with the distinct in-range picks
1, 0, 2 succeeds, but index 0 ends up holding the individual first stored at index 0,
not the deme entry `D[1]` first stored at index 1, because the entry is read after the
write of the first iteration. -/
theorem ll_insert_deme_forced_aliased_counterexample :
    [1, 0, 2].length = ((DemeRef.same : DemeRef Int).deref residents).size ∧
    [1, 0, 2].Nodup ∧ (∀ k ∈ [1, 0, 2], k < residents.size) ∧
    residents.ll_insert_deme true .same [1, 0, 2] =
      (.ok (), ⟨[⟨[5], 3⟩, ⟨[5], 3⟩, ⟨[10], 2⟩], unitProblem⟩) ∧
    ([1, 0, 2] : List Nat)[1]? = some 0 ∧
    (residents.ll_insert_deme true .same [1, 0, 2]).2.pop[0]? ≠
      ((DemeRef.same : DemeRef Int).deref residents).pop[1]? := by
  have h : residents.ll_insert_deme true .same [1, 0, 2] =
      (.ok (), ⟨[⟨[5], 3⟩, ⟨[5], 3⟩, ⟨[10], 2⟩], unitProblem⟩) := rfl
  refine ⟨by decide, by decide, by decide, h, by decide, ?_⟩
  rw [h]
  decide

/-- C3, amended. Forced deme insertion writes unconditionally: when the deme is a
population object other than the receiving one, the pick list has the size of the deme
and every pick is below the population size, `ll_insert_deme<true>` succeeds and keeps
the population size (and the problem); every picked index `j` ends up holding the deme
entry of the last position that picks `j`; every index that is not picked keeps its
individual; so with distinct picks index `K[i]` holds `D[i]` for all `i`. -/
theorem ll_insert_deme_forced_writes {R : Type} [LT R]
    [DecidableRel (LT.lt : R → R → Prop)] (P D : Population R)
    (K : List Nat) (hsize : K.length = D.size) (hrange : ∀ k ∈ K, k < P.size) :
    (P.ll_insert_deme true (.other D) K).1 = .ok () ∧
    (P.ll_insert_deme true (.other D) K).2.size = P.size ∧
    (P.ll_insert_deme true (.other D) K).2.m_problem = P.m_problem ∧
    (∀ (i j : Nat), K[i]? = some j → (∀ i1, i < i1 → K[i1]? ≠ some j) →
      (P.ll_insert_deme true (.other D) K).2.pop[j]? = D.pop[i]?) ∧
    (∀ (j : Nat), j ∉ K → (P.ll_insert_deme true (.other D) K).2.pop[j]? = P.pop[j]?) ∧
    (K.Nodup → ∀ (i k : Nat), K[i]? = some k →
      (P.ll_insert_deme true (.other D) K).2.pop[k]? = D.pop[i]?) := by
  rw [ll_insert_deme_eq true P D K hsize]
  have hlast := insertEntries_forced_last P.size K D.pop P.pop hsize hrange rfl
  refine ⟨insertEntries_ok true P.size K D.pop P.pop hrange, ?_, rfl, hlast, ?_, ?_⟩
  · exact insertEntries_length true P.size K D.pop P.pop
  · intro j hj
    exact insertEntries_not_picked true P.size j K D.pop P.pop hj
  · intro hnd i k hi
    apply hlast i k hi
    intro i1 hlt h1
    have hi0 : i < K.length := (List.getElem?_eq_some_iff.mp hi).1
    have hi1 : i1 < K.length := (List.getElem?_eq_some_iff.mp h1).1
    have e0 : K[i] = k := (List.getElem?_eq_some_iff.mp hi).2
    have e1 : K[i1] = k := (List.getElem?_eq_some_iff.mp h1).2
    have := (List.Nodup.getElem_inj_iff hnd).mp (e0.trans e1.symm)
    omega

/-- Witness of C3, amended: the two immigrants written at indices 2 and 0 of the
residents. -/
theorem ll_insert_deme_forced_writes_witness :
    [2, 0].length = immigrants.size ∧ (∀ k ∈ [2, 0], k < residents.size) ∧
    (residents.ll_insert_deme true (.other immigrants) [2, 0]).1 = .ok () ∧
    (residents.ll_insert_deme true (.other immigrants) [2, 0]).2.size = residents.size :=
  ⟨by decide, by decide,
    (ll_insert_deme_forced_writes residents immigrants [2, 0] (by decide) (by decide)).1,
    (ll_insert_deme_forced_writes residents immigrants [2, 0] (by decide) (by decide)).2.1⟩

/-- C4, as stated, fails when the deme is the receiving population itself: the call
`p.ll_insert_deme<false>(p, picks)` on the residents with the distinct in-range picks
1, 2, 0 succeeds; the deme entry `D[2]`, of fitness 2, is offered at index 0, whose
resident has fitness 3, so the claim has index 0 end up holding `D[2]`; it ends up
holding the individual of fitness 1 that the second iteration wrote at index 2. -/
theorem ll_insert_deme_gated_aliased_counterexample :
    [1, 2, 0].length = ((DemeRef.same : DemeRef Int).deref residents).size ∧
    [1, 2, 0].Nodup ∧ (∀ k ∈ [1, 2, 0], k < residents.size) ∧
    residents.ll_insert_deme false .same [1, 2, 0] =
      (.ok (), ⟨[⟨[0], 1⟩, ⟨[0], 1⟩, ⟨[0], 1⟩], unitProblem⟩) ∧
    ([1, 2, 0] : List Nat)[2]? = some 0 ∧
    ((DemeRef.same : DemeRef Int).deref residents).pop[2]? = some ⟨[10], 2⟩ ∧
    residents.pop[0]? = some ⟨[5], 3⟩ ∧
    (residents.ll_insert_deme false .same [1, 2, 0]).2.pop[0]? ≠
      some (if (⟨[10], 2⟩ : Individual Int).getFitness <
          (⟨[5], 3⟩ : Individual Int).getFitness
        then ⟨[10], 2⟩ else ⟨[5], 3⟩) := by
  have h : residents.ll_insert_deme false .same [1, 2, 0] =
      (.ok (), ⟨[⟨[0], 1⟩, ⟨[0], 1⟩, ⟨[0], 1⟩], unitProblem⟩) := rfl
  refine ⟨by decide, by decide, by decide, h, by decide, by decide, by decide, ?_⟩
  rw [h]
  decide

/-- C4, amended. Policy-gated deme insertion replaces only on strict improvement: when
the deme is a population object other than the receiving one and the picks are
distinct, below the population size and as many as the deme entries,
`ll_insert_deme<false>` succeeds, index `K[i]` ends up holding `D[i]` when the fitness
of `D[i]` is strictly less than the fitness of the resident `P[K[i]]` and the resident
otherwise (in particular an immigrant of equal fitness does not replace the resident,
`<` being irreflexive), and every index not in `K` keeps its individual. -/
theorem ll_insert_deme_gated_writes {R : Type} [LT R]
    [DecidableRel (LT.lt : R → R → Prop)] (hirr : ∀ a : R, ¬ a < a)
    (P D : Population R)
    (K : List Nat) (hsize : K.length = D.size) (hnodup : K.Nodup)
    (hrange : ∀ k ∈ K, k < P.size) :
    (P.ll_insert_deme false (.other D) K).1 = .ok () ∧
    (∀ (i k : Nat) (d r : Individual R), K[i]? = some k → D.pop[i]? = some d →
      P.pop[k]? = some r →
      (P.ll_insert_deme false (.other D) K).2.pop[k]? =
        some (if d.getFitness < r.getFitness then d else r)) ∧
    (∀ (i k : Nat) (d r : Individual R), K[i]? = some k → D.pop[i]? = some d →
      P.pop[k]? = some r → d.getFitness = r.getFitness →
      (P.ll_insert_deme false (.other D) K).2.pop[k]? = some r) ∧
    (∀ (j : Nat), j ∉ K →
      (P.ll_insert_deme false (.other D) K).2.pop[j]? = P.pop[j]?) := by
  rw [ll_insert_deme_eq false P D K hsize]
  have hg := insertEntries_gated P.size K D.pop P.pop hsize hnodup hrange
  refine ⟨insertEntries_ok false P.size K D.pop P.pop hrange, hg, ?_, ?_⟩
  · intro i k d r hi hd hres heq
    have := hg i k d r hi hd hres
    rw [if_neg (by rw [heq]; exact hirr _)] at this
    exact this
  · intro j hj
    exact insertEntries_not_picked false P.size j K D.pop P.pop hj

/-- Witness of C4, amended: the two immigrants offered at indices 1 and 2 of the
residents. -/
theorem ll_insert_deme_gated_writes_witness :
    (∀ a : Int, ¬ a < a) ∧
    [1, 2].length = immigrants.size ∧ [1, 2].Nodup ∧ (∀ k ∈ [1, 2], k < residents.size) ∧
    (residents.ll_insert_deme false (.other immigrants) [1, 2]).1 = .ok () :=
  ⟨fun a => lt_irrefl a, by decide, by decide, by decide,
    (ll_insert_deme_gated_writes (fun a => lt_irrefl a) residents immigrants [1, 2]
      (by decide) (by decide) (by decide)).1⟩

/-- C5. Round-trip law: if the deme `D` is the snapshot of the population `P` at the
in-range picks `K` (as many entries as picks, and `D[i] = P[K[i]]` for all `i`), then
the forced insertion of `D` at `K`, `ll_insert_deme<true>` and with it
`insertDemeForced`, succeeds and leaves the population identical to `P`; this holds
whether the deme is another population object or the receiving population itself. -/
theorem insertDemeForced_roundtrip {R : Type} [LT R]
    [DecidableRel (LT.lt : R → R → Prop)] (P : Population R) (deme : DemeRef R)
    (K : List Nat) (hsize : K.length = (deme.deref P).size)
    (hrange : ∀ k ∈ K, k < P.size)
    (hsnap : ∀ (i k : Nat), K[i]? = some k → (deme.deref P).pop[i]? = P.pop[k]?) :
    P.ll_insert_deme true deme K = (.ok (), P) ∧
    P.insertDemeForced deme K = (.ok (), P) := by
  have hpop : (deme.deref P).pop = deme.pop P.pop := by cases deme <;> rfl
  have h : P.ll_insert_deme true deme K = (.ok (), P) := by
    rw [ll_insert_deme_run true P deme K hsize,
      ll_insert_deme_loop_snapshot deme K P.size hrange K.length 0 P.pop
        (by rw [← hpop]; exact hsnap)]
  exact ⟨h, h⟩

/-- Witness of C5: the snapshot of the residents at the picks 2, 0, 2. -/
theorem insertDemeForced_roundtrip_witness :
    residents.ll_insert_deme true
      (.other ⟨[⟨[10], 2⟩, ⟨[5], 3⟩, ⟨[10], 2⟩], unitProblem⟩) [2, 0, 2] =
        (.ok (), residents) :=
  (insertDemeForced_roundtrip residents
    (.other ⟨[⟨[10], 2⟩, ⟨[5], 3⟩, ⟨[10], 2⟩], unitProblem⟩)
    [2, 0, 2] (by decide) (by decide) (by
      intro i k hi
      match i, hi with
      | 0, hi => cases hi; rfl
      | 1, hi => cases hi; rfl
      | 2, hi => cases hi; rfl
      | n + 3, hi => simp at hi)).1

/-- C6. Deme insertion, forced or policy-gated, with a deme whose size differs from the
size of the pick list throws (the exception it throws is `index_error` with the message
"mismatch between deme size and picks size while inserting deme") and leaves the
population unchanged; this holds for every deme reference. -/
theorem ll_insert_deme_size_mismatch {R : Type} [LT R]
    [DecidableRel (LT.lt : R → R → Prop)] (Forced : Bool)
    (P : Population R) (deme : DemeRef R) (K : List Nat)
    (hsize : K.length ≠ (deme.deref P).size) :
    P.ll_insert_deme Forced deme K =
      (.error (.index_error "mismatch between deme size and picks size while inserting deme"),
        P) := by
  simp only [Population.ll_insert_deme, if_pos hsize]

/-- Witness of C6: two immigrants offered with a single pick, in forced mode. -/
theorem ll_insert_deme_size_mismatch_witness :
    [1].length ≠ immigrants.size ∧
    residents.ll_insert_deme true (.other immigrants) [1] =
      (.error (.index_error "mismatch between deme size and picks size while inserting deme"),
        residents) :=
  ⟨by decide,
    ll_insert_deme_size_mismatch true residents (.other immigrants) [1] (by decide)⟩

/-- C7. When the pick list has the size of the deme, deme insertion, forced or
policy-gated, throws the out-of-range `index_error` if and only if some pick is not
below the population size (a pick equal to the size included); it throws nothing else,
and it succeeds exactly when all picks are below the population size; this holds for
every deme reference. -/
theorem ll_insert_deme_index_error_iff {R : Type} [LT R]
    [DecidableRel (LT.lt : R → R → Prop)] (Forced : Bool)
    (P : Population R) (deme : DemeRef R) (K : List Nat)
    (hsize : K.length = (deme.deref P).size) :
    ((P.ll_insert_deme Forced deme K).1 = .error
        (.index_error "pick value exceeds population's size while inserting deme") ↔
      ∃ k ∈ K, P.size ≤ k) ∧
    ((∃ e, (P.ll_insert_deme Forced deme K).1 = .error e) ↔ ∃ k ∈ K, P.size ≤ k) ∧
    ((P.ll_insert_deme Forced deme K).1 = .ok () ↔ ∀ k ∈ K, k < P.size) := by
  rw [ll_insert_deme_run Forced P deme K hsize]
  simp only
  have herr : (∃ k ∈ K, P.size ≤ k) →
      (ll_insert_deme_loop Forced deme K P.size K.length 0 P.pop).1 = .error
        (.index_error "pick value exceeds population's size while inserting deme") := by
    intro hex
    obtain ⟨k, hk, hge⟩ := hex
    obtain ⟨j, hj⟩ := List.mem_iff_getElem?.mp hk
    exact ll_insert_deme_loop_error Forced deme K P.size K.length 0 P.pop (by simp)
      (by rw [← DemeRef.deref_size, hsize]) ⟨j, k, Nat.zero_le _, hj, hge⟩
  have hok := fun h => ll_insert_deme_loop_ok Forced deme K P.size h K.length 0 P.pop
  by_cases hall : ∀ k ∈ K, k < P.size
  · have hno : ¬ ∃ k ∈ K, P.size ≤ k := by
      rintro ⟨k, hk, hge⟩
      have := hall k hk
      omega
    rw [hok hall]
    refine ⟨⟨fun h => (by cases h), fun h => absurd h hno⟩,
      ⟨fun ⟨e, h⟩ => (by cases h), fun h => absurd h hno⟩, ⟨fun _ => hall, fun _ => rfl⟩⟩
  · have hex : ∃ k ∈ K, P.size ≤ k := by
      by_contra hc
      apply hall
      intro k hk
      by_contra hlt
      exact hc ⟨k, hk, by omega⟩
    rw [herr hex]
    refine ⟨⟨fun _ => hex, fun _ => rfl⟩, ⟨fun _ => hex, fun _ => ⟨_, rfl⟩⟩,
      ⟨fun h => (by cases h), fun h => absurd h hall⟩⟩

/-- Witness of C7: a pick equal to the population size makes the call throw. -/
theorem ll_insert_deme_index_error_iff_witness :
    [0, 3].length = immigrants.size ∧
    ((residents.ll_insert_deme false (.other immigrants) [0, 3]).1 = .error
        (.index_error "pick value exceeds population's size while inserting deme") ↔
      ∃ k ∈ [0, 3], residents.size ≤ k) :=
  ⟨by decide, (ll_insert_deme_index_error_iff false residents (.other immigrants) [0, 3]
    (by decide)).1⟩

/-- C8, as stated, fails: the residents satisfy the container invariant, the single pick
0 is in range and the deme has one entry, yet after the forced insertion
(`ll_insert_deme<true>`, `insertDemeForced`) and after the policy-gated insertion
(`ll_insert_deme<false>`, `insertDeme`) the individual stored at index 0 lies outside
the bounds of the problem of the receiving population: the deme entry is stored as it
is, without validation. -/
theorem insertDeme_invariant_counterexample :
    residents.invariant ∧ foreignDeme.invariant ∧
    [0].length = foreignDeme.size ∧ (∀ k ∈ [0], k < residents.size) ∧
    residents.ll_insert_deme true (.other foreignDeme) [0] =
      (.ok (), ⟨[⟨[50], 0⟩, ⟨[0], 1⟩, ⟨[10], 2⟩], unitProblem⟩) ∧
    residents.ll_insert_deme false (.other foreignDeme) [0] =
      (.ok (), ⟨[⟨[50], 0⟩, ⟨[0], 1⟩, ⟨[10], 2⟩], unitProblem⟩) ∧
    ¬ (residents.ll_insert_deme true (.other foreignDeme) [0]).2.invariant ∧
    ¬ (residents.ll_insert_deme false (.other foreignDeme) [0]).2.invariant ∧
    ¬ (residents.insertDemeForced (.other foreignDeme) [0]).2.invariant ∧
    ¬ (residents.insertDeme (.other foreignDeme) [0]).2.invariant := by
  have ht : residents.ll_insert_deme true (.other foreignDeme) [0] =
      (.ok (), ⟨[⟨[50], 0⟩, ⟨[0], 1⟩, ⟨[10], 2⟩], unitProblem⟩) := rfl
  have hf : residents.ll_insert_deme false (.other foreignDeme) [0] =
      (.ok (), ⟨[⟨[50], 0⟩, ⟨[0], 1⟩, ⟨[10], 2⟩], unitProblem⟩) := rfl
  have hbad : ¬ (⟨[⟨[50], 0⟩, ⟨[0], 1⟩, ⟨[10], 2⟩], unitProblem⟩ :
      Population Int).invariant := by decide
  refine ⟨by decide, by decide, by decide, by decide, ht, hf, ?_, ?_, ?_, ?_⟩
  · rw [ht]; exact hbad
  · rw [hf]; exact hbad
  · rw [Population.insertDemeForced, ht]; exact hbad
  · rw [Population.insertDeme, hf]; exact hbad

/-- C8, amended. If every stored individual of the population has the problem's
dimension and lies within the problem's bounds, and so does every individual of the
deme with respect to the problem of the receiving population, then for in-range picks,
as many as the deme entries, deme insertion in either mode (`ll_insert_deme<Forced>`,
hence `insertDeme` and `insertDemeForced`) succeeds and the population afterwards still
has every stored individual of the problem's dimension and within the problem's
bounds; this holds for every deme reference. -/
theorem insertDeme_preserves_invariant {R : Type} [LinearOrder R] (P : Population R)
    (deme : DemeRef R) (K : List Nat) (hinv : P.invariant)
    (hdeme : ∀ ind ∈ (deme.deref P).pop, P.m_problem.admits ind.x)
    (hsize : K.length = (deme.deref P).size) (hrange : ∀ k ∈ K, k < P.size) :
    (∀ Forced : Bool, (P.ll_insert_deme Forced deme K).1 = .ok () ∧
      (P.ll_insert_deme Forced deme K).2.invariant) ∧
    ((P.insertDeme deme K).1 = .ok () ∧ (P.insertDeme deme K).2.invariant) ∧
    ((P.insertDemeForced deme K).1 = .ok () ∧ (P.insertDemeForced deme K).2.invariant) := by
  have hpop : (deme.deref P).pop = deme.pop P.pop := by cases deme <;> rfl
  have key : ∀ Forced : Bool, (P.ll_insert_deme Forced deme K).1 = .ok () ∧
      (P.ll_insert_deme Forced deme K).2.invariant := by
    intro Forced
    rw [ll_insert_deme_run Forced P deme K hsize]
    refine ⟨ll_insert_deme_loop_ok Forced deme K P.size hrange K.length 0 P.pop, ?_⟩
    intro ind hind
    rcases ll_insert_deme_loop_mem Forced deme K P.size K.length 0 P.pop ind hind
      with h | h
    · exact hinv ind h
    · exact hdeme ind (by rw [hpop]; exact h)
  exact ⟨key, key false, key true⟩

/-- Witness of C8, amended: the immigrants, a deme of the same problem, written at
indices 2 and 0 of the residents. -/
theorem insertDeme_preserves_invariant_witness :
    residents.invariant ∧ (∀ ind ∈ immigrants.pop, residents.m_problem.admits ind.x) ∧
    [2, 0].length = immigrants.size ∧ (∀ k ∈ [2, 0], k < residents.size) ∧
    (residents.ll_insert_deme true (.other immigrants) [2, 0]).2.invariant :=
  ⟨by decide, by decide, by decide, by decide,
    ((insertDeme_preserves_invariant residents (.other immigrants) [2, 0] (by decide)
      (by decide) (by decide) (by decide)).1 true).2⟩

/-! ## Claims on the migration callbacks -/

/-- C9. Migration has zero effect when absent: for every archipelago whose migration
scheme is null and every island, `preEvolutionCallback` and `postEvolutionCallback`
return without error and leave the island and the archipelago unchanged, whatever the
callbacks of the migration-scheme class do. -/
theorem evolutionCallbacks_null_scheme {Island Problem Scheme : Type}
    (schemePre schemePost : Scheme → Island → Except pagmo_exception (Scheme × Island))
    (A : archipelago Island Problem Scheme) (_island : Island)
    (hnull : A.migrationScheme = none) :
    A.preEvolutionCallback schemePre _island = .ok (A, _island) ∧
    A.postEvolutionCallback schemePost _island = .ok (A, _island) := by
  simp [archipelago.preEvolutionCallback, archipelago.postEvolutionCallback, hnull]

/-- Witness of C9: an archipelago of one island without scheme, with callbacks that
would throw, respectively replace the island, if they were called. -/
theorem evolutionCallbacks_null_scheme_witness :
    (⟨[residents], unitProblem, none, none⟩ :
        archipelago (Population Int) (GOProblem Int) Unit).preEvolutionCallback
      (fun _ _ => .error (.index_error "called")) residents =
        .ok (⟨[residents], unitProblem, none, none⟩, residents) ∧
    (⟨[residents], unitProblem, none, none⟩ :
        archipelago (Population Int) (GOProblem Int) Unit).postEvolutionCallback
      (fun s _ => .ok (s, immigrants)) residents =
        .ok (⟨[residents], unitProblem, none, none⟩, residents) :=
  evolutionCallbacks_null_scheme _ _ _ residents rfl

/-! ## Tie-breaking of the scan -/

/-- Loop invariant of the scan for tie-breaking: if moreover every individual before
`index` is strictly worse than `f` under the functor, then no stored individual is
preferred to the one the returned index designates, and every individual before the
returned index is strictly worse than it. The functor is transitive, irreflexive, and
prefers `a` to `c` whenever it prefers `a` to `b` and does not prefer `c` to `b`. -/
theorem extract_most_index_loop_first {R : Type} (func : R → R → Bool)
    (htrans : ∀ a b c, func a b = true → func b c = true → func a c = true)
    (hirr : ∀ a, func a a = false)
    (hneg : ∀ a b c, func a b = true → func c b = false → func a c = true)
    (pop : List (Individual R)) :
    ∀ (n i : Nat) (f : R) (index : Nat), i + n = pop.length → index < i →
      (∃ cur, pop[index]? = some cur ∧ cur.getFitness = f) →
      (∀ (j : Nat) (ind : Individual R), j < i → pop[j]? = some ind →
        func ind.getFitness f = false) →
      (∀ (j : Nat) (ind : Individual R), j < index → pop[j]? = some ind →
        func f ind.getFitness = true) →
      ∃ ext, pop[extract_most_index_loop func pop n i f index]? = some ext ∧
        (∀ (j : Nat) (ind : Individual R), pop[j]? = some ind →
          func ind.getFitness ext.getFitness = false) ∧
        ∀ (j : Nat) (ind : Individual R),
          j < extract_most_index_loop func pop n i f index → pop[j]? = some ind →
          func ext.getFitness ind.getFitness = true := by
  intro n
  induction n with
  | zero =>
    intro i f index hlen _ hcur hinv hbefore
    obtain ⟨cur, hcur, hf⟩ := hcur
    refine ⟨cur, by simpa [extract_most_index_loop] using hcur, ?_, ?_⟩
    · intro j ind hget
      have hji : j < i := by
        have := (List.getElem?_eq_some_iff.mp hget).1
        omega
      rw [hf]
      exact hinv j ind hji hget
    · intro j ind hj hget
      rw [hf]
      exact hbefore j ind (by simpa [extract_most_index_loop] using hj) hget
  | succ n ih =>
    intro i f index hlen hidx hcur hinv hbefore
    have hi : i < pop.length := by omega
    have hget : pop[i]? = some pop[i] := List.getElem?_eq_getElem hi
    rw [extract_most_index_loop, hget]
    simp only
    by_cases hc : func pop[i].getFitness f = true
    · rw [if_pos hc]
      have hworse : ∀ (j : Nat) (ind : Individual R), j < i → pop[j]? = some ind →
          func pop[i].getFitness ind.getFitness = true :=
        fun j ind hj hjget => hneg _ _ _ hc (hinv j ind hj hjget)
      apply ih (i + 1) pop[i].getFitness i (by omega) (by omega) ⟨pop[i], hget, rfl⟩
      · intro j ind hj hjget
        rcases Nat.lt_succ_iff_lt_or_eq.mp hj with hlt | heq
        · by_contra h2
          have h3 : func ind.getFitness pop[i].getFitness = true := by simpa using h2
          have h4 := htrans _ _ _ h3 (hworse j ind hlt hjget)
          rw [hirr] at h4
          exact Bool.noConfusion h4
        · subst heq
          rw [hget] at hjget
          cases hjget
          exact hirr _
      · exact hworse
    · rw [if_neg hc]
      apply ih (i + 1) f index (by omega) (by omega) hcur
      · intro j ind hj hjget
        rcases Nat.lt_succ_iff_lt_or_eq.mp hj with hlt | heq
        · exact hinv j ind hlt hjget
        · subst heq
          rw [hget] at hjget
          cases hjget
          simpa using hc
      · exact hbefore

/-- The scan of a non-empty population returns an index such that no stored individual
is preferred to the one it designates and every individual stored before it is strictly
worse, under the functor, than the one it designates. -/
theorem extract_most_index_first {R : Type} (func : R → R → Bool)
    (htrans : ∀ a b c, func a b = true → func b c = true → func a c = true)
    (hirr : ∀ a, func a a = false)
    (hneg : ∀ a b c, func a b = true → func c b = false → func a c = true)
    (P : Population R) (hne : P.pop ≠ []) :
    ∃ i ext, P.extract_most_index func = .ok i ∧ P.pop[i]? = some ext ∧
      (∀ ind ∈ P.pop, func ind.getFitness ext.getFitness = false) ∧
      ∀ (j : Nat) (ind : Individual R), j < i → P.pop[j]? = some ind →
        func ext.getFitness ind.getFitness = true := by
  obtain ⟨pop, prob⟩ := P
  cases pop with
  | nil => exact absurd rfl hne
  | cons p0 rest =>
    have h := extract_most_index_loop_first func htrans hirr hneg (p0 :: rest)
      ((p0 :: rest).length - 1) 1 p0.getFitness 0 (by simp; omega) (by omega)
      ⟨p0, by simp, rfl⟩ (by
        intro j ind hj hget
        have : j = 0 := by omega
        subst this
        simp only [List.getElem?_cons_zero, Option.some.injEq] at hget
        subst hget
        exact hirr _)
      (by intro j ind hj; omega)
    obtain ⟨ext, hext, hextr, hall⟩ := h
    refine ⟨_, ext, rfl, hext, ?_, hall⟩
    intro ind hind
    obtain ⟨j, hj⟩ := List.getElem?_of_mem hind
    exact hextr j ind hj

/-- C11, as stated, fails on `double` fitness values: on a population with fitness
values 1, NaN and 0 the scan under strict less-than returns index 2, and the individual
at the smaller index 1, whose fitness is NaN, is not strictly worse than the one
returned, since `0 < NaN` is false. -/
theorem extract_most_index_nan_counterexample :
    1 ≤ nanPopulation.size ∧
    nanPopulation.extract_most_index less = .ok 2 ∧
    nanPopulation.pop[2]? = some ⟨[], .number 0⟩ ∧
    nanPopulation.pop[1]? = some ⟨[], .NaN⟩ ∧
    less (⟨[], .number 0⟩ : Individual (double Int)).getFitness
      (⟨[], .NaN⟩ : Individual (double Int)).getFitness = false := by
  refine ⟨by decide, rfl, rfl, rfl, rfl⟩

/-- C11, amended. Tie-breaking of the best/worst scan over a totally ordered fitness
type (no NaN): for every non-empty population, `extract_most_index` returns the lowest
index among the individuals attaining the extreme fitness. With the comparator of
`extractBestIndividual` the fitness at the returned index is `<=` every stored fitness
and every individual at a smaller index has a strictly greater fitness; with the
comparator of `extractWorstIndividual` the fitness at the returned index is `>=` every
stored fitness and every individual at a smaller index has a strictly smaller one; so
an individual whose fitness equals the fitness at the returned index is never stored
before it. -/
theorem extract_most_index_lowest_index {R : Type} [LinearOrder R] (P : Population R)
    (hne : 1 ≤ P.size) :
    (∃ i best, P.extract_most_index less = .ok i ∧ i < P.size ∧
      P.pop[i]? = some best ∧
      (∀ ind ∈ P.pop, best.getFitness ≤ ind.getFitness) ∧
      (∀ (j : Nat) (ind : Individual R), j < i → P.pop[j]? = some ind →
        less best.getFitness ind.getFitness = true ∧ best.getFitness < ind.getFitness) ∧
      (∀ (j : Nat) (ind : Individual R), P.pop[j]? = some ind →
        ind.getFitness = best.getFitness → i ≤ j)) ∧
    (∃ i worst, P.extract_most_index greater = .ok i ∧ i < P.size ∧
      P.pop[i]? = some worst ∧
      (∀ ind ∈ P.pop, ind.getFitness ≤ worst.getFitness) ∧
      (∀ (j : Nat) (ind : Individual R), j < i → P.pop[j]? = some ind →
        greater worst.getFitness ind.getFitness = true ∧
          ind.getFitness < worst.getFitness) ∧
      (∀ (j : Nat) (ind : Individual R), P.pop[j]? = some ind →
        ind.getFitness = worst.getFitness → i ≤ j)) := by
  have hne1 : P.pop ≠ [] := by
    intro h
    simp [Population.size, h] at hne
  constructor
  · obtain ⟨i, ext, hok, hget, hextr, hall⟩ :=
      extract_most_index_first (less : R → R → Bool)
      (fun a b c hab hbc => by
        simp only [less, decide_eq_true_eq] at *
        exact lt_trans hab hbc)
      (fun a => by simp [less])
      (fun a b c hab hcb => by
        simp only [less, decide_eq_true_eq, decide_eq_false_iff_not, not_lt] at *
        exact lt_of_lt_of_le hab hcb) P hne1
    refine ⟨i, ext, hok, (List.getElem?_eq_some_iff.mp hget).1, hget, ?_, ?_, ?_⟩
    · intro ind hind
      simpa [less] using hextr ind hind
    · intro j ind hj hjget
      have h := hall j ind hj hjget
      exact ⟨h, by simpa [less] using h⟩
    · intro j ind hjget heq
      by_contra hlt
      have h := hall j ind (by omega) hjget
      simp [less, heq] at h
  · obtain ⟨i, ext, hok, hget, hextr, hall⟩ :=
      extract_most_index_first (greater : R → R → Bool)
      (fun a b c hab hbc => by
        simp only [greater, gt_iff_lt, decide_eq_true_eq] at *
        exact lt_trans hbc hab)
      (fun a => by simp [greater])
      (fun a b c hab hcb => by
        simp only [greater, gt_iff_lt, decide_eq_true_eq, decide_eq_false_iff_not,
          not_lt] at *
        exact lt_of_le_of_lt hcb hab) P hne1
    refine ⟨i, ext, hok, (List.getElem?_eq_some_iff.mp hget).1, hget, ?_, ?_, ?_⟩
    · intro ind hind
      simpa [greater] using hextr ind hind
    · intro j ind hj hjget
      have h := hall j ind hj hjget
      exact ⟨h, by simpa [greater] using h⟩
    · intro j ind hjget heq
      by_contra hlt
      have h := hall j ind (by omega) hjget
      simp [greater, heq] at h

/-- Witness of C11, amended: the residents, whose best individual is at index 1. -/
theorem extract_most_index_lowest_index_witness :
    1 ≤ residents.size ∧
    ∃ i best, residents.extract_most_index less = .ok i ∧ i < residents.size ∧
      residents.pop[i]? = some best ∧
      (∀ ind ∈ residents.pop, best.getFitness ≤ ind.getFitness) ∧
      (∀ (j : Nat) (ind : Individual Int), j < i → residents.pop[j]? = some ind →
        less best.getFitness ind.getFitness = true ∧ best.getFitness < ind.getFitness) ∧
      (∀ (j : Nat) (ind : Individual Int), residents.pop[j]? = some ind →
        ind.getFitness = best.getFitness → i ≤ j) :=
  ⟨by decide, (extract_most_index_lowest_index residents (by decide)).1⟩

/-! ## Failure part-way and monotonicity of the insertion loop -/

/-- When position `k` holds the first pick that is not below the population size, the
walk throws there, and the container it leaves is the one the walk over the first `k`
picks and deme entries produces. -/
theorem insertEntries_prefix {R : Type} [LT R] [DecidableRel (LT.lt : R → R → Prop)]
    (Forced : Bool) (pop_size : Nat) :
    ∀ (ks : List Nat) (ds pop : List (Individual R)) (k v : Nat), ks.length = ds.length →
      ks[k]? = some v → pop_size ≤ v →
      (∀ (i w : Nat), i < k → ks[i]? = some w → w < pop_size) →
      insertEntries Forced pop_size ks ds pop =
        (.error (.index_error "pick value exceeds population's size while inserting deme"),
          (insertEntries Forced pop_size (ks.take k) (ds.take k) pop).2) := by
  intro ks
  induction ks with
  | nil => intro ds pop k v _ hk; simp at hk
  | cons k0 ks ih =>
    intro ds pop k v hlen hk hv hbefore
    cases ds with
    | nil => simp at hlen
    | cons d ds =>
      simp only [List.length_cons, add_left_inj] at hlen
      cases k with
      | zero =>
        simp only [List.getElem?_cons_zero, Option.some.injEq] at hk
        subst hk
        have hge : k0 ≥ pop_size := hv
        simp only [insertEntries, if_pos hge, List.take_zero]
      | succ k =>
        simp only [List.getElem?_cons_succ] at hk
        have hk0 : ¬ k0 ≥ pop_size := by
          have := hbefore 0 k0 (by omega) (by simp)
          omega
        have hbefore1 : ∀ (i w : Nat), i < k → ks[i]? = some w → w < pop_size := by
          intro i w hi hw
          exact hbefore (i + 1) w (by omega) (by simpa using hw)
        simp only [insertEntries, if_neg hk0, List.take_succ_cons]
        by_cases hc : (Forced || (pop[k0]?).any
            (fun r => decide (d.getFitness < r.getFitness))) = true
        · rw [if_pos hc, if_pos hc]
          exact ih ds (pop.set k0 d) k v hlen hk hv hbefore1
        · rw [if_neg hc, if_neg hc]
          exact ih ds pop k v hlen hk hv hbefore1

/-- Policy-gated walk: whatever the picks, the individual stored at an index afterwards
has a fitness not greater than the one stored there before. -/
theorem insertEntries_gated_le {R : Type} [LinearOrder R] (pop_size : Nat) :
    ∀ (ks : List Nat) (ds pop : List (Individual R)) (j : Nat) (r1 : Individual R),
      (insertEntries false pop_size ks ds pop).2[j]? = some r1 →
      ∃ r0, pop[j]? = some r0 ∧ r1.getFitness ≤ r0.getFitness := by
  intro ks
  induction ks with
  | nil => intro ds pop j r1 h; exact ⟨r1, by simpa [insertEntries] using h, le_refl _⟩
  | cons k ks ih =>
    intro ds pop j r1 h
    cases ds with
    | nil => exact ⟨r1, by simpa [insertEntries] using h, le_refl _⟩
    | cons d ds =>
      simp only [insertEntries, Bool.false_or] at h
      by_cases hk : k ≥ pop_size
      · rw [if_pos hk] at h
        exact ⟨r1, h, le_refl _⟩
      · rw [if_neg hk] at h
        by_cases hc : (pop[k]?).any (fun r => decide (d.getFitness < r.getFitness)) = true
        · rw [if_pos hc] at h
          obtain ⟨r, hr, hle⟩ := ih ds (pop.set k d) j r1 h
          by_cases hjk : k = j
          · subst hjk
            cases hres : pop[k]? with
            | none => simp [hres] at hc
            | some r0 =>
              have hlt : k < pop.length := (List.getElem?_eq_some_iff.mp hres).1
              rw [List.getElem?_set_self hlt] at hr
              cases hr
              simp only [hres, Option.any_some, decide_eq_true_eq] at hc
              exact ⟨r0, rfl, le_trans hle (le_of_lt hc)⟩
          · rw [List.getElem?_set_ne hjk] at hr
            exact ⟨r, hr, hle⟩
        · rw [if_neg hc] at h
          exact ih ds pop j r1 h

/-- C12, as stated, fails when the deme is the receiving population itself: the call
`p.ll_insert_deme<true>(p, picks)` on the residents with the picks 1, 0, 3 throws at
position 2, the first out-of-range pick, and leaves the individual first stored at
index 0 at both indices 0 and 1, whereas the insertion of the first two deme entries at
the first two picks exchanges the individuals of indices 0 and 1. -/
theorem ll_insert_deme_not_atomic_aliased_counterexample :
    [1, 0, 3].length = ((DemeRef.same : DemeRef Int).deref residents).size ∧
    ([1, 0, 3] : List Nat)[2]? = some 3 ∧ residents.size ≤ 3 ∧
    (∀ k ∈ [1, 0], k < residents.size) ∧
    residents.ll_insert_deme true .same [1, 0, 3] =
      (.error (.index_error "pick value exceeds population's size while inserting deme"),
        ⟨[⟨[5], 3⟩, ⟨[5], 3⟩, ⟨[10], 2⟩], unitProblem⟩) ∧
    residents.ll_insert_deme true
      (.other ⟨((DemeRef.same : DemeRef Int).deref residents).pop.take 2,
        residents.m_problem⟩) ([1, 0, 3].take 2) =
      (.ok (), ⟨[⟨[0], 1⟩, ⟨[5], 3⟩, ⟨[10], 2⟩], unitProblem⟩) ∧
    (residents.ll_insert_deme true .same [1, 0, 3]).2 ≠
      (residents.ll_insert_deme true
        (.other ⟨((DemeRef.same : DemeRef Int).deref residents).pop.take 2,
          residents.m_problem⟩) ([1, 0, 3].take 2)).2 := by
  have h1 : residents.ll_insert_deme true .same [1, 0, 3] =
      (.error (.index_error "pick value exceeds population's size while inserting deme"),
        ⟨[⟨[5], 3⟩, ⟨[5], 3⟩, ⟨[10], 2⟩], unitProblem⟩) := rfl
  have h2 : residents.ll_insert_deme true
      (.other ⟨((DemeRef.same : DemeRef Int).deref residents).pop.take 2,
        residents.m_problem⟩) ([1, 0, 3].take 2) =
      (.ok (), ⟨[⟨[0], 1⟩, ⟨[5], 3⟩, ⟨[10], 2⟩], unitProblem⟩) := rfl
  refine ⟨by decide, by decide, by decide, by decide, h1, h2, ?_⟩
  rw [h1, h2]
  decide

/-- C12, amended. Deme insertion is not atomic on an out-of-range pick. For every
population `P`, deme `D` that is a population object other than `P`, and picks `K` with
as many picks as deme entries, if `k` is the first position whose pick is not below the
population size, then `ll_insert_deme` (in either mode) throws the out-of-range
`index_error`, the insertion of the first `k` deme entries at the first `k` picks
succeeds, and the population at the point of failure is the result of that insertion.
Hence there is an input (forced mode, one in-range pick followed by a pick equal to the
size) on which the call throws and the population has nevertheless been modified. -/
theorem ll_insert_deme_not_atomic :
    (∀ (R : Type) [LT R] [DecidableRel (LT.lt : R → R → Prop)] (Forced : Bool)
        (P D : Population R) (K : List Nat)
        (k v : Nat), K.length = D.size → K[k]? = some v → P.size ≤ v →
        (∀ (i w : Nat), i < k → K[i]? = some w → w < P.size) →
        (P.ll_insert_deme Forced (.other D) K).1 = .error
          (.index_error "pick value exceeds population's size while inserting deme") ∧
        (P.ll_insert_deme Forced (.other ⟨D.pop.take k, D.m_problem⟩) (K.take k)).1 =
          .ok () ∧
        (P.ll_insert_deme Forced (.other D) K).2 =
          (P.ll_insert_deme Forced (.other ⟨D.pop.take k, D.m_problem⟩) (K.take k)).2) ∧
    (∃ (P D : Population Int) (K : List Nat), K.length = D.size ∧
      (P.ll_insert_deme true (.other D) K).1 = .error
        (.index_error "pick value exceeds population's size while inserting deme") ∧
      (P.ll_insert_deme true (.other D) K).2 ≠ P) := by
  constructor
  · intro R _ _ Forced P D K k v hsize hk hv hbefore
    have hklt : k < K.length := (List.getElem?_eq_some_iff.mp hk).1
    have hsize1 : (K.take k).length = (⟨D.pop.take k, D.m_problem⟩ : Population R).size := by
      have hd : K.length = D.pop.length := hsize
      simp only [Population.size, List.length_take]
      omega
    have hrange1 : ∀ w ∈ K.take k, w < P.size := by
      intro w hw
      obtain ⟨i, hi⟩ := List.mem_iff_getElem?.mp hw
      have hik : i < k := by
        have := (List.getElem?_eq_some_iff.mp hi).1
        simp only [List.length_take] at this
        omega
      rw [List.getElem?_take_of_lt hik] at hi
      exact hbefore i w hik hi
    rw [ll_insert_deme_eq Forced P D K hsize,
      ll_insert_deme_eq Forced P ⟨D.pop.take k, D.m_problem⟩ (K.take k) hsize1,
      insertEntries_prefix Forced P.size K D.pop P.pop k v hsize hk hv hbefore]
    exact ⟨rfl, insertEntries_ok Forced P.size (K.take k) (D.pop.take k) P.pop hrange1, rfl⟩
  · refine ⟨residents, immigrants, [0, 3], by decide, rfl, ?_⟩
    have h : (residents.ll_insert_deme true (.other immigrants) [0, 3]).2 =
        ⟨[⟨[4], 0⟩, ⟨[0], 1⟩, ⟨[10], 2⟩], unitProblem⟩ := rfl
    rw [h]
    decide

/-- Witness of C12, amended: two immigrants offered to the residents at the picks 0 and
3; the call throws at the second pick after the first immigrant was offered at index
0. -/
theorem ll_insert_deme_not_atomic_witness :
    (residents.ll_insert_deme false (.other immigrants) [0, 3]).1 = .error
        (.index_error "pick value exceeds population's size while inserting deme") ∧
    (residents.ll_insert_deme false
        (.other ⟨immigrants.pop.take 1, immigrants.m_problem⟩) ([0, 3].take 1)).1 =
      .ok () ∧
    (residents.ll_insert_deme false (.other immigrants) [0, 3]).2 =
      (residents.ll_insert_deme false
        (.other ⟨immigrants.pop.take 1, immigrants.m_problem⟩) ([0, 3].take 1)).2 :=
  ll_insert_deme_not_atomic.1 Int false residents immigrants [0, 3] 1 3 (by decide)
    (by decide) (by decide) (by
      intro i w hi hw
      have h0 : i = 0 := by omega
      subst h0
      simp only [List.getElem?_cons_zero, Option.some.injEq] at hw
      subst hw
      decide)

/-- C13, as stated, fails on `double` fitness values: a resident whose fitness is NaN is
never replaced by the policy-gated insertion (`0 < NaN` is false), so after the call
the fitness stored at index 0 is still NaN, and `NaN <= NaN` is false; the best
individual before and after the call is that resident. -/
theorem ll_insert_deme_gated_nan_counterexample :
    [0].length = numberDeme.size ∧ (∀ k ∈ [0], k < nanResident.size) ∧
    nanResident.ll_insert_deme false (.other numberDeme) [0] = (.ok (), nanResident) ∧
    nanResident.pop[0]? = some ⟨[], .NaN⟩ ∧
    nanResident.extract_most_index less = .ok 0 ∧
    ¬ ((⟨[], .NaN⟩ : Individual (double Int)).getFitness ≤
      (⟨[], .NaN⟩ : Individual (double Int)).getFitness) := by
  refine ⟨by decide, by decide, rfl, rfl, rfl, ?_⟩
  intro h
  exact h

/-- C13, amended. Policy-gated insertion never worsens the population when the fitness
values are totally ordered (no NaN): for every population `P`, deme reference and
in-range picks `K` with as many picks as deme entries (duplicates allowed),
`ll_insert_deme<false>` succeeds and keeps the size, the fitness stored at every index
afterwards is `<=` the fitness stored there before, and so the fitness of the best
individual (the one `extract_most_index` designates under strict less-than) after the
call is `<=` the fitness of the best individual before. -/
theorem ll_insert_deme_gated_never_worse {R : Type} [LinearOrder R] (P : Population R)
    (deme : DemeRef R) (K : List Nat) (hsize : K.length = (deme.deref P).size)
    (hrange : ∀ k ∈ K, k < P.size) :
    (P.ll_insert_deme false deme K).1 = .ok () ∧
    (P.ll_insert_deme false deme K).2.size = P.size ∧
    (∀ (j : Nat) (r0 r1 : Individual R), P.pop[j]? = some r0 →
      (P.ll_insert_deme false deme K).2.pop[j]? = some r1 →
      r1.getFitness ≤ r0.getFitness) ∧
    (∀ (i0 i1 : Nat) (b0 b1 : Individual R), P.extract_most_index less = .ok i0 →
      P.pop[i0]? = some b0 →
      (P.ll_insert_deme false deme K).2.extract_most_index less = .ok i1 →
      (P.ll_insert_deme false deme K).2.pop[i1]? = some b1 →
      b1.getFitness ≤ b0.getFitness) ∧
    (1 ≤ P.size → ∃ (i0 i1 : Nat) (b0 b1 : Individual R),
      P.extract_most_index less = .ok i0 ∧ P.pop[i0]? = some b0 ∧
      (P.ll_insert_deme false deme K).2.extract_most_index less = .ok i1 ∧
      (P.ll_insert_deme false deme K).2.pop[i1]? = some b1 ∧
      b1.getFitness ≤ b0.getFitness) := by
  have hlen : (P.ll_insert_deme false deme K).2.size = P.size := by
    rw [ll_insert_deme_run false P deme K hsize]
    exact ll_insert_deme_loop_length false deme K P.size K.length 0 P.pop
  have hpoint : ∀ (j : Nat) (r0 r1 : Individual R), P.pop[j]? = some r0 →
      (P.ll_insert_deme false deme K).2.pop[j]? = some r1 →
      r1.getFitness ≤ r0.getFitness := by
    intro j r0 r1 h0 h1
    rw [ll_insert_deme_run false P deme K hsize] at h1
    obtain ⟨r, hr, hle⟩ :=
      ll_insert_deme_loop_gated_le deme K P.size K.length 0 P.pop j r1 h1
    rw [h0] at hr
    cases hr
    exact hle
  have hltrans : ∀ a b c : R, less a b = true → less b c = true → less a c = true := by
    intro a b c hab hbc
    simp only [less, decide_eq_true_eq] at *
    exact lt_trans hab hbc
  have hlirr : ∀ a : R, less a a = false := fun a => by simp [less]
  have hbest : ∀ (i0 i1 : Nat) (b0 b1 : Individual R), P.extract_most_index less = .ok i0 →
      P.pop[i0]? = some b0 →
      (P.ll_insert_deme false deme K).2.extract_most_index less = .ok i1 →
      (P.ll_insert_deme false deme K).2.pop[i1]? = some b1 →
      b1.getFitness ≤ b0.getFitness := by
    intro i0 i1 b0 b1 _ hb0 hok1 hb1
    have hi0 : i0 < (P.ll_insert_deme false deme K).2.pop.length := by
      have h1 : i0 < P.pop.length := (List.getElem?_eq_some_iff.mp hb0).1
      have h2 : (P.ll_insert_deme false deme K).2.pop.length = P.pop.length := hlen
      omega
    have hne1 : (P.ll_insert_deme false deme K).2.pop ≠ [] := by
      intro h
      rw [h] at hi0
      simp at hi0
    obtain ⟨i, ext, hok, hget, hall⟩ := extract_most_index_spec (less : R → R → Bool)
      hltrans hlirr (P.ll_insert_deme false deme K).2 hne1
    rw [hok1] at hok
    cases hok
    rw [hb1] at hget
    cases hget
    have hmem := List.getElem_mem hi0
    have h1 := hall _ hmem
    have h2 : b1.getFitness ≤ ((P.ll_insert_deme false deme K).2.pop[i0]).getFitness := by
      simpa [less] using h1
    exact le_trans h2 (hpoint i0 b0 _ hb0 (List.getElem?_eq_getElem hi0))
  refine ⟨?_, hlen, hpoint, hbest, ?_⟩
  · rw [ll_insert_deme_run false P deme K hsize]
    exact ll_insert_deme_loop_ok false deme K P.size hrange K.length 0 P.pop
  · intro hpos
    have hne0 : P.pop ≠ [] := by
      intro h
      simp [Population.size, h] at hpos
    have hne1 : (P.ll_insert_deme false deme K).2.pop ≠ [] := by
      intro h
      have h2 : (P.ll_insert_deme false deme K).2.pop.length = P.pop.length := hlen
      rw [h] at h2
      have h3 : 1 ≤ P.pop.length := hpos
      simp at h2
      omega
    obtain ⟨i0, b0, hok0, hget0, _⟩ := extract_most_index_spec (less : R → R → Bool)
      hltrans hlirr P hne0
    obtain ⟨i1, b1, hok1, hget1, _⟩ := extract_most_index_spec (less : R → R → Bool)
      hltrans hlirr (P.ll_insert_deme false deme K).2 hne1
    exact ⟨i0, i1, b0, b1, hok0, hget0, hok1, hget1, hbest i0 i1 b0 b1 hok0 hget0 hok1 hget1⟩

/-- Witness of C13, amended: the two immigrants both offered at index 0 of the
residents, a repeated pick. -/
theorem ll_insert_deme_gated_never_worse_witness :
    [0, 0].length = immigrants.size ∧ (∀ k ∈ [0, 0], k < residents.size) ∧
    (residents.ll_insert_deme false (.other immigrants) [0, 0]).1 = .ok () ∧
    (residents.ll_insert_deme false (.other immigrants) [0, 0]).2.size = residents.size :=
  ⟨by decide, by decide,
    (ll_insert_deme_gated_never_worse residents (.other immigrants) [0, 0] (by decide)
      (by decide)).1,
    (ll_insert_deme_gated_never_worse residents (.other immigrants) [0, 0] (by decide)
      (by decide)).2.1⟩

end Pagmo
